import Mathlib

/-!
A shallow embedding of the reference-resolution and scope-extraction core of
the Context Packer tool, together with proofs checking its specification.

File contents are modelled as the list of lines obtained by the source's
`content.split('\n')`; every stored context string is likewise represented by
its list of lines (so "line count" of a context is `List.length`).  JavaScript
exceptions are modelled by `Option` (a `none` result is a thrown exception).
The external TypeScript parser (`@typescript-eslint/typescript-estree`) is an
oracle of the file system model; the Python pseudo-parser is translated from
`src/lib/python-parser.ts` line by line.
-/

set_option maxHeartbeats 1000000

namespace CPack

/-- `CodeLocation` from `src/types/index.ts`: 1-indexed line, 0-indexed column. -/
structure CodeLocation where
  filePath : String
  line : Int
  column : Int
deriving Repr, DecidableEq

/-- `ContextDepth` from `src/types/index.ts`. -/
inductive ContextDepth where
  | SNIPPET
  | LOGIC
  | MODULE
deriving Repr, DecidableEq

/-- The scope record returned by `findEnclosingScope` in `reference-finder.ts`. -/
structure ScopeInfo where
  name : String
  startLine : Int
  endLine : Int
deriving Repr, DecidableEq

/-- `FunctionReference` from `src/types/index.ts`; `context` is kept as its
list of lines (the split of the stored string). -/
structure FunctionReference where
  location : CodeLocation
  context : List String
  depth : ContextDepth
  enclosingScope : Option String
deriving Repr, DecidableEq

/-- `AnalysisResult` from `src/types/index.ts`. -/
structure AnalysisResult where
  functionName : String
  references : List FunctionReference
  count : Nat
deriving Repr, DecidableEq

/-- Source range of an AST node (`node.loc` of typescript-estree). -/
structure Loc where
  startLine : Int
  startColumn : Int
  endLine : Int
  endColumn : Int
deriving Repr, DecidableEq

/-- The node kinds relevant to the reference finder and scope resolver
(`AST_NODE_TYPES` cases inspected by `reference-finder.ts`); all other node
types are `otherNode`.  `funcDecl`/`funcExpr` carry `node.id`'s identifier
name (if any), `methodDef` carries `node.key`'s identifier name (if any),
`identE` carries `node.name`, `memberE` carries `node.computed`. -/
inductive NKind where
  | funcDecl (id : Option String)
  | funcExpr (id : Option String)
  | arrowFn
  | methodDef (key : Option String)
  | callExpr
  | identE (name : String)
  | memberE (computed : Bool)
  | otherNode
deriving Repr, DecidableEq

/-- A typescript-estree node: kind tag, source range and child nodes in
property order.  By convention a `callExpr`'s children are
`callee :: arguments` and a `memberE`'s children are `[object, property]`. -/
inductive Node where
  | node (kind : NKind) (loc : Loc) (children : List Node)
deriving Repr

/-- The file system seen by the core: `read` models `fs.readFileSync` followed
by `split('\n')` (`none` = unreadable, a thrown error), and `parseTS` models
the external `@typescript-eslint/typescript-estree` parse of a file
(`none` = parse failure, i.e. `parseFile` returned `null`). -/
structure FileSys where
  read : String → Option (List String)
  parseTS : String → Option Node

/-- Whitespace as matched by the regex class `\s` / `trim` (restricted to the
characters that can occur inside one line of a split file). -/
def isWsChar (c : Char) : Bool :=
  c = ' ' || c = '\t' || c = '\r'

/-- Word characters, the regex class `\w` = `[A-Za-z0-9_]`. -/
def isWordChar (c : Char) : Bool :=
  c.isAlphanum || c = '_'

/-- Number of leading whitespace characters: `line.length - line.trimStart().length`. -/
def indentOf (line : String) : Nat :=
  (line.toList.takeWhile isWsChar).length

/-- `line.trim() === ''`. -/
def isBlankLine (line : String) : Bool :=
  line.toList.dropWhile isWsChar = []

/-- `line.trim().startsWith('#')`. -/
def isCommentLine (line : String) : Bool :=
  match line.toList.dropWhile isWsChar with
  | '#' :: _ => true
  | _ => false

/-- `haystack.includes(needle)` (substring test). -/
def listHasInfix (needle : List Char) : List Char → Bool
  | [] => needle.isEmpty
  | c :: rest => needle.isPrefixOf (c :: rest) || listHasInfix needle rest

/-- `filePath.endsWith('.py')` (suffix test on the character list). -/
def isPythonFile (fp : String) : Bool :=
  ".py".data.isSuffixOf fp.data

/-- `lines[n-1] || ''` with a 1-indexed JavaScript index `n`:
out-of-range access yields `undefined`, which `|| ''` turns into `''`
(an in-range empty line also yields `''`, the same value). -/
def lineAtJs (lines : List String) (n : Int) : String :=
  if 1 ≤ n ∧ n ≤ lines.length then lines.getD (n - 1).toNat "" else ""

/-- Clamp one `Array.prototype.slice` index: negative indices count from the
end of the array, and everything is clamped into `[0, len]`. -/
def jsSliceIdx (len : Nat) (x : Int) : Nat :=
  if x < 0 then ((len : Int) + x).toNat else min x.toNat len

/-- `arr.slice(s, e)` with JavaScript index semantics. -/
def jsSlice (l : List String) (s e : Int) : List String :=
  let s' := jsSliceIdx l.length s
  let e' := jsSliceIdx l.length e
  (l.drop s').take (e' - s')

/-- `getLines` from `parser.ts` on an already-split file:
`lines.slice(startLine - 1, endLine)` (result kept as a list of lines). -/
def getLinesJs (lines : List String) (startLine endLine : Int) : List String :=
  jsSlice lines (startLine - 1) endLine

/-- `getFileContent` from `parser.ts`: the raw file text, as its line list
(`none` models the thrown read error). -/
def getFileContent (fs : FileSys) (filePath : String) : Option (List String) :=
  fs.read filePath

/-- `getLine` from `parser.ts`. -/
def getLine (fs : FileSys) (filePath : String) (lineNumber : Int) : Option String :=
  (getFileContent fs filePath).map (fun lines => lineAtJs lines lineNumber)

/-- `getLines` from `parser.ts`. -/
def getLines (fs : FileSys) (filePath : String) (startLine endLine : Int) :
    Option (List String) :=
  (getFileContent fs filePath).map (fun lines => getLinesJs lines startLine endLine)

/-- The line list of the string `l.join('\n')`: joining and re-splitting an
empty list of lines gives `[""]`, otherwise the lines are unchanged. -/
def asTextLines (l : List String) : List String :=
  if l.isEmpty then [""] else l

/-- `PythonFunction` from `python-parser.ts` (1-indexed lines). -/
structure PythonFunction where
  name : String
  startLine : Nat
  endLine : Nat
  indentLevel : Nat
deriving Repr, DecidableEq

/-- `PythonClass` from `python-parser.ts`. -/
structure PythonClass where
  name : String
  startLine : Nat
  endLine : Nat
  methods : List PythonFunction
deriving Repr, DecidableEq

/-- `PythonAST` from `python-parser.ts`. -/
structure PythonAST where
  functions : List PythonFunction
  classes : List PythonClass
deriving Repr, DecidableEq

/-- `FUNCTION_DEF_RE = /^(\s*)def\s+(\w+)\s*\(/` — on success returns the
captured indentation length and function name. -/
def matchFunctionDef (line : String) : Option (Nat × String) :=
  let cs := line.toList
  let ws := cs.takeWhile isWsChar
  match cs.dropWhile isWsChar with
  | 'd' :: 'e' :: 'f' :: rest =>
    let sp := rest.takeWhile isWsChar
    if sp.isEmpty then none
    else
      let rest2 := rest.dropWhile isWsChar
      let nm := rest2.takeWhile isWordChar
      if nm.isEmpty then none
      else
        match (rest2.dropWhile isWordChar).dropWhile isWsChar with
        | '(' :: _ => some (ws.length, String.mk nm)
        | _ => none
  | _ => none

/-- `CLASS_DEF_RE = /^(\s*)class\s+(\w+)/`. -/
def matchClassDef (line : String) : Option (Nat × String) :=
  let cs := line.toList
  let ws := cs.takeWhile isWsChar
  match cs.dropWhile isWsChar with
  | 'c' :: 'l' :: 'a' :: 's' :: 's' :: rest =>
    let sp := rest.takeWhile isWsChar
    if sp.isEmpty then none
    else
      let nm := (rest.dropWhile isWsChar).takeWhile isWordChar
      if nm.isEmpty then none else some (ws.length, String.mk nm)
  | _ => none

/-- `FUNCTION_DEF_RE.test(line)`. -/
def testFunctionDef (line : String) : Bool :=
  (matchFunctionDef line).isSome

/-- The loop body of `findBlockEndLine`, with an explicit fuel argument used
only for termination (the loop runs at most `lines.length - i` iterations, so
any fuel `≥ lines.length - i` yields the loop's exact result). -/
def findBlockEndAux (lines : List String) (blockIndent : Nat) :
    Nat → Nat → Nat → Nat
  | 0, _, endLine => endLine
  | fuel + 1, i, endLine =>
    if i < lines.length then
      let line := lines.getD i ""
      if isBlankLine line || isCommentLine line then
        findBlockEndAux lines blockIndent fuel (i + 1) endLine
      else if indentOf line ≤ blockIndent then endLine
      else findBlockEndAux lines blockIndent fuel (i + 1) (i + 1)
    else endLine

/-- `findBlockEndLine` from `python-parser.ts`: the end line (1-indexed) of an
indentation block starting its scan at 0-based index `startLine`. -/
def findBlockEndLine (lines : List String) (startLine blockIndent : Nat) : Nat :=
  findBlockEndAux lines blockIndent lines.length startLine startLine

/-- `extractMethods` from `python-parser.ts`: every `def` between the class
body start and the class end whose indentation exceeds the class's. -/
def extractMethods (lines : List String) (classBodyStart classEndLine classIndent : Nat) :
    List PythonFunction :=
  (List.range' classBodyStart (classEndLine - classBodyStart)).filterMap fun i =>
    match matchFunctionDef (lines.getD i "") with
    | some (ind, nm) =>
      if classIndent < ind then
        some ⟨nm, i + 1, findBlockEndLine lines (i + 1) ind, ind⟩
      else none
    | none => none

/-- The per-line loop of `parsePythonFile` on an already-split file: a line
matching `CLASS_DEF_RE` yields a class (with its methods) and is skipped for
the function check; otherwise a `def` at indentation 0 yields a top-level
function. -/
def parsePythonLines (lines : List String) : PythonAST :=
  { functions := (List.range lines.length).filterMap fun i =>
      match matchClassDef (lines.getD i "") with
      | some _ => none
      | none =>
        match matchFunctionDef (lines.getD i "") with
        | some (ind, nm) =>
          if ind = 0 then some ⟨nm, i + 1, findBlockEndLine lines (i + 1) ind, ind⟩
          else none
        | none => none
    classes := (List.range lines.length).filterMap fun i =>
      match matchClassDef (lines.getD i "") with
      | some (ind, nm) =>
        let endLine := findBlockEndLine lines (i + 1) ind
        some ⟨nm, i + 1, endLine, extractMethods lines (i + 1) endLine ind⟩
      | none => none }

/-- `parsePythonFile` from `python-parser.ts`: an unreadable file yields the
empty AST (the `catch` branch). -/
def parsePythonFile (fs : FileSys) (filePath : String) : PythonAST :=
  match fs.read filePath with
  | none => ⟨[], []⟩
  | some lines => parsePythonLines lines

/-- Is the character at index `i` a word character (`false` off either end)? -/
def wordAt (cs : List Char) (i : Nat) : Bool :=
  match cs.drop i with
  | c :: _ => isWordChar c
  | [] => false

/-- The regex word-boundary `\b` at position `j`: the wordness of the
character before `j` differs from the wordness of the character at `j`. -/
def boundaryAt (cs : List Char) (j : Nat) : Bool :=
  (if j = 0 then false else wordAt cs (j - 1)) != wordAt cs j

/-- One attempted match of the call pattern
`\b` + name + `\s*` + `(` at position `j`; on success returns the length of
the matched text. -/
def matchCallAt (cs nm : List Char) (j : Nat) : Option Nat :=
  if boundaryAt cs j && nm.isPrefixOf (cs.drop j) then
    let rest := cs.drop (j + nm.length)
    let sp := rest.takeWhile isWsChar
    match rest.drop sp.length with
    | '(' :: _ => some (nm.length + sp.length + 1)
    | _ => none
  else none

/-- The global-regex exec loop of `findPythonReferences`: all (non-overlapping,
leftmost-first) match positions of the call pattern in one line.  The fuel is
only for termination; every match consumes at least the final `(`, so any fuel
`≥ cs.length - j` yields the loop's exact result. -/
def scanCallsAux (cs nm : List Char) : Nat → Nat → List Nat
  | 0, _ => []
  | fuel + 1, j =>
    if j < cs.length then
      match matchCallAt cs nm j with
      | some len => j :: scanCallsAux cs nm fuel (j + len)
      | none => scanCallsAux cs nm fuel (j + 1)
    else []

/-- All match positions (0-indexed columns) of `\b${name}\s*\(` in `line`. -/
def scanCalls (line nm : String) : List Nat :=
  scanCallsAux line.toList nm.toList line.toList.length 0

/-- The skip test of `findPythonReferences`:
`FUNCTION_DEF_RE.test(line) && line.includes('def ' + functionName)`. -/
def pySkipLine (line functionName : String) : Bool :=
  testFunctionDef line && listHasInfix ("def " ++ functionName).toList line.toList

/-- The per-line scan of `findPythonReferences` on an already-split file. -/
def findPythonReferencesLines (filePath : String) (lines : List String)
    (functionName : String) : List CodeLocation :=
  (List.range lines.length).flatMap fun i =>
    let line := lines.getD i ""
    if pySkipLine line functionName then []
    else (scanCalls line functionName).map fun c =>
      ⟨filePath, (i : Int) + 1, Int.ofNat c⟩

/-- `findPythonReferences` from `python-parser.ts` (an unreadable file yields
`[]`, the `catch` branch). -/
def findPythonReferences (fs : FileSys) (filePath functionName : String) :
    List CodeLocation :=
  match fs.read filePath with
  | none => []
  | some lines => findPythonReferencesLines filePath lines functionName

/-- View a Python function record as a scope candidate. -/
def pyFnScope (f : PythonFunction) : ScopeInfo :=
  ⟨f.name, (f.startLine : Int), (f.endLine : Int)⟩

/-- View a Python class record as a scope candidate. -/
def pyClsScope (c : PythonClass) : ScopeInfo :=
  ⟨c.name, (c.startLine : Int), (c.endLine : Int)⟩

/-- The scope candidates inspected by `findPythonEnclosingScopeWithLines`, in
its exact scan order: all top-level functions, then for each class the class
itself followed by its methods. -/
def pyScopeCandidates (ast : PythonAST) : List ScopeInfo :=
  ast.functions.map pyFnScope ++
    ast.classes.flatMap fun c => pyClsScope c :: c.methods.map pyFnScope

/-- The containment test of the scan:
`scope.startLine <= line && scope.endLine >= line`. -/
def scopeContains (line : Int) (s : ScopeInfo) : Bool :=
  s.startLine ≤ line && s.endLine ≥ line

/-- One step of the best-candidate scan of
`findPythonEnclosingScopeWithLines`: a containing candidate replaces the
current best exactly when its size (`endLine - startLine`) is strictly
smaller than the best size so far (`Infinity` when there is no best yet). -/
def selStep (line : Int) (acc : Option (ScopeInfo × Int)) (c : ScopeInfo) :
    Option (ScopeInfo × Int) :=
  if scopeContains line c then
    let size := c.endLine - c.startLine
    match acc with
    | none => some (c, size)
    | some (_, bestSize) => if size < bestSize then some (c, size) else acc
  else acc

/-- `findPythonEnclosingScopeWithLines` from `reference-finder.ts`: the three
consecutive loops over functions, classes and methods are one left fold of
`selStep` over the candidates in the same scan order. -/
def findPythonEnclosingScopeWithLines (fs : FileSys) (filePath : String)
    (line : Int) : Option ScopeInfo :=
  ((pyScopeCandidates (parsePythonFile fs filePath)).foldl (selStep line) none).map
    Prod.fst

/-- The callee-name resolution of `findReferencesInFile`: a plain identifier
gives its own name; a member access gives the property's identifier name only
when the access is non-computed and the property is an identifier. -/
def calleeNameOf : Node → Option String
  | .node (.identE nm) _ _ => some nm
  | .node (.memberE computed) _ ch =>
    if computed then none
    else
      match ch with
      | [_, .node (.identE nm) _ _] => some nm
      | _ => none
  | _ => none

/-- The locations recorded at one node by the reference walk: a call
expression whose resolved callee name equals `functionName` records the call's
start position. -/
def callMatchLoc (filePath functionName : String) : Node → List CodeLocation
  | .node .callExpr l ch =>
    match ch with
    | callee :: _ =>
      if calleeNameOf callee = some functionName then
        [⟨filePath, l.startLine, l.startColumn⟩]
      else []
    | [] => []
  | _ => []

mutual

/-- The `walk` closure of `findReferencesInFile`: record a matching call at
the node itself, then recurse into every child, in order. -/
def refWalkN (filePath functionName : String) : Node → List CodeLocation
  | .node k l ch =>
    callMatchLoc filePath functionName (.node k l ch) ++
      refWalkL filePath functionName ch

/-- `refWalkN` over a child list, left to right. -/
def refWalkL (filePath functionName : String) : List Node → List CodeLocation
  | [] => []
  | n :: rest =>
    refWalkN filePath functionName n ++ refWalkL filePath functionName rest

end

/-- Is this node kind one of the four function-like scope candidates? -/
def NKind.isFuncLike : NKind → Bool
  | .funcDecl _ => true
  | .funcExpr _ => true
  | .arrowFn => true
  | .methodDef _ => true
  | _ => false

/-- The scope-name extraction of `findEnclosingScope`: the node's `id`
identifier if present, else its `key` identifier, else `"anonymous"`. -/
def NKind.scopeName : NKind → String
  | .funcDecl (some nm) => nm
  | .funcExpr (some nm) => nm
  | .methodDef (some k) => k
  | _ => "anonymous"

mutual

/-- The `walk` closure of `findEnclosingScope`, with the mutable `enclosing`
variable threaded as `cur`: a node is entered only when its line range
contains the target line; a containing function-like node overwrites `cur`
before its children are walked. -/
def scopeWalkN (line : Int) (cur : Option ScopeInfo) : Node → Option ScopeInfo
  | .node k l ch =>
    if l.startLine ≤ line ∧ l.endLine ≥ line then
      scopeWalkL line
        (if k.isFuncLike then some ⟨k.scopeName, l.startLine, l.endLine⟩ else cur) ch
    else cur

/-- `scopeWalkN` over a child list, threading `cur` left to right. -/
def scopeWalkL (line : Int) (cur : Option ScopeInfo) : List Node → Option ScopeInfo
  | [] => cur
  | n :: rest => scopeWalkL line (scopeWalkN line cur n) rest

end

mutual

/-- Pre-order listing of all nodes of a tree. -/
def preorderN : Node → List Node
  | .node k l ch => .node k l ch :: preorderL ch

/-- Pre-order listing of all nodes of a forest. -/
def preorderL : List Node → List Node
  | [] => []
  | n :: rest => preorderN n ++ preorderL rest

end

mutual

/-- The function-like scopes whose range contains `line`, in the order the
scope walk records them (a node's subtree is entered only when the node's
range contains `line`). -/
def containedScopesN (line : Int) : Node → List ScopeInfo
  | .node k l ch =>
    if l.startLine ≤ line ∧ l.endLine ≥ line then
      (if k.isFuncLike then [⟨k.scopeName, l.startLine, l.endLine⟩] else []) ++
        containedScopesL line ch
    else []

/-- `containedScopesN` over a child list. -/
def containedScopesL (line : Int) : List Node → List ScopeInfo
  | [] => []
  | n :: rest => containedScopesN line n ++ containedScopesL line rest

end

mutual

/-- All node ranges lie within lines `1..len` (true of every tree produced by
a real parse of a file with `len` lines). -/
def boundedN (len : Nat) : Node → Bool
  | .node _ l ch => (1 ≤ l.startLine && l.endLine ≤ (len : Int)) && boundedL len ch

/-- `boundedN` over a child list. -/
def boundedL (len : Nat) : List Node → Bool
  | [] => true
  | n :: rest => boundedN len n && boundedL len rest

end

/-- `findReferencesInFile` from `reference-finder.ts`: Python files go through
the line scanner; other files are parsed (a failed parse contributes `[]`)
and walked. -/
def findReferencesInFile (fs : FileSys) (filePath functionName : String) :
    List CodeLocation :=
  if isPythonFile filePath then findPythonReferences fs filePath functionName
  else
    match fs.parseTS filePath with
    | none => []
    | some ast => refWalkN filePath functionName ast

/-- `findEnclosingScope` from `reference-finder.ts`. -/
def findEnclosingScope (fs : FileSys) (filePath : String)
    (location : CodeLocation) : Option ScopeInfo :=
  if isPythonFile filePath then
    findPythonEnclosingScopeWithLines fs filePath location.line
  else
    match fs.parseTS filePath with
    | none => none
    | some ast => scopeWalkN location.line none ast

/-- The leading truncation marker line of the `LOGIC` fallback window. -/
def truncHeader (startLine endLine : Int) : String :=
  "// ... (function truncated, showing lines " ++ toString startLine ++ "-" ++
    toString endLine ++ ")"

/-- `extractReferenceContext` from `context-extractor.ts`.  The stored context
string is represented by its line list; `none` models a thrown read error. -/
def extractReferenceContext (fs : FileSys) (location : CodeLocation)
    (depth : ContextDepth) (maxContextLines : Nat) : Option FunctionReference :=
  match depth with
  | .SNIPPET =>
    (getLine fs location.filePath location.line).map fun l =>
      ⟨location, [l], depth, none⟩
  | .LOGIC =>
    match findEnclosingScope fs location.filePath location with
    | some scope =>
      if scope.endLine - scope.startLine + 1 > (maxContextLines : Int) then
        let contextRadius : Int := ((maxContextLines / 2 : Nat) : Int)
        let startLine := max scope.startLine (location.line - contextRadius)
        let endLine := min scope.endLine (location.line + contextRadius)
        (getLines fs location.filePath startLine endLine).map fun body =>
          ⟨location, truncHeader startLine endLine :: asTextLines body ++ ["// ..."],
            depth, some scope.name⟩
      else
        (getLines fs location.filePath scope.startLine scope.endLine).map fun body =>
          ⟨location, asTextLines body, depth, some scope.name⟩
    | none =>
      (getLine fs location.filePath location.line).map fun l =>
        ⟨location, [l], depth, none⟩
  | .MODULE =>
    (getFileContent fs location.filePath).map fun lines =>
      ⟨location, asTextLines lines, depth, none⟩

/-- `extractMultipleContexts` from `context-extractor.ts`: map the single
extraction over the list (a thrown error aborts the whole call). -/
def extractMultipleContexts (fs : FileSys) (locations : List CodeLocation)
    (depth : ContextDepth) (maxContextLines : Nat) :
    Option (List FunctionReference) :=
  match locations with
  | [] => some []
  | loc :: rest =>
    match extractReferenceContext fs loc depth maxContextLines with
    | none => none
    | some r =>
      (extractMultipleContexts fs rest depth maxContextLines).map (r :: ·)

/-- The `ContextPacker` options after construction: the discovered file list
(the trusted output of `findFilesSync`), the depth and `maxContextLines`. -/
structure ContextPacker where
  files : List String
  depth : ContextDepth
  maxContextLines : Nat

/-- `ContextPacker.analyze` from `context-packer.ts`: concatenate every
file's references in file order, then extract contexts for all of them. -/
def ContextPacker.analyze (fs : FileSys) (p : ContextPacker)
    (functionName : String) : Option AnalysisResult :=
  let allLocations := p.files.flatMap fun f => findReferencesInFile fs f functionName
  (extractMultipleContexts fs allLocations p.depth p.maxContextLines).map fun refs =>
    ⟨functionName, refs, refs.length⟩

/-- The summary record of `MultiAnalysisResult` from `multi-function-analyzer.ts`. -/
structure MultiSummary where
  functionCount : Nat
  filesScanned : Nat
  filesWithMatches : Nat
  totalMatches : Nat
deriving Repr, DecidableEq

/-- `MultiAnalysisResult` from `multi-function-analyzer.ts`; the JavaScript
`Map` is an insertion-ordered association list. -/
structure MultiAnalysisResult where
  functions : List String
  results : List (String × AnalysisResult)
  totalReferences : Nat
  summary : MultiSummary
deriving Repr, DecidableEq

/-- `Map.prototype.set`: replace the value in place if the key is present,
else append the pair. -/
def mapSet (m : List (String × AnalysisResult)) (k : String) (v : AnalysisResult) :
    List (String × AnalysisResult) :=
  match m with
  | [] => [(k, v)]
  | (k', v') :: rest => if k' = k then (k, v) :: rest else (k', v') :: mapSet rest k v

/-- `Set.prototype.add`: append the element if absent. -/
def setInsert (s : List String) (x : String) : List String :=
  if x ∈ s then s else s ++ [x]

/-- `MultiFunctionAnalyzer` from `multi-function-analyzer.ts`. -/
structure MultiFunctionAnalyzer where
  packer : ContextPacker

/-- The per-name loop of `MultiFunctionAnalyzer.analyze`, threading the
results map, the running total and the matched-file set. -/
def multiLoop (fs : FileSys) (p : ContextPacker) :
    List String → List (String × AnalysisResult) → Nat → List String →
      Option (List (String × AnalysisResult) × Nat × List String)
  | [], m, tot, fset => some (m, tot, fset)
  | nm :: rest, m, tot, fset =>
    match p.analyze fs nm with
    | none => none
    | some r =>
      multiLoop fs p rest (mapSet m nm r) (tot + r.references.length)
        (r.references.foldl (fun s ref => setInsert s ref.location.filePath) fset)

/-- `MultiFunctionAnalyzer.analyze`: run the single-name analysis once per
name (in caller order) and aggregate the summary counters;
`filesScanned` is `getStats().totalFiles`, the discovered file count. -/
def MultiFunctionAnalyzer.analyze (fs : FileSys) (a : MultiFunctionAnalyzer)
    (functionNames : List String) : Option MultiAnalysisResult :=
  (multiLoop fs a.packer functionNames [] 0 []).map fun (m, tot, fset) =>
    ⟨functionNames, m, tot,
      ⟨functionNames.length, a.packer.files.length, fset.length, tot⟩⟩

/-! ### Lemmas about line extraction -/

theorem getLinesJs_length_le (lines : List String) (s e : Int) (h1 : 1 ≤ s)
    (h2 : s ≤ e) : ((getLinesJs lines s e).length : Int) ≤ e - s + 1 := by
  unfold getLinesJs jsSlice jsSliceIdx
  have hs : ¬s - 1 < 0 := by omega
  simp only [if_neg hs, List.length_take, List.length_drop]
  split <;> omega

theorem getLinesJs_length_le_len (lines : List String) (s e : Int) :
    (getLinesJs lines s e).length ≤ lines.length := by
  unfold getLinesJs jsSlice jsSliceIdx
  simp only [List.length_take, List.length_drop]
  exact le_trans (min_le_right _ _) (Nat.sub_le _ _)

theorem getLinesJs_length_full (lines : List String) (s e : Int) (h1 : 1 ≤ s)
    (h2 : s ≤ e) (h3 : e ≤ lines.length) :
    ((getLinesJs lines s e).length : Int) = e - s + 1 := by
  unfold getLinesJs jsSlice jsSliceIdx
  have hs : ¬s - 1 < 0 := by omega
  have he : ¬e < 0 := by omega
  simp only [if_neg hs, if_neg he, List.length_take, List.length_drop]
  omega

theorem lineAtJs_mem_getLinesJs (lines : List String) (s e line : Int)
    (h1 : 1 ≤ s) (hsl : s ≤ line) (hle : line ≤ e) (hN : line ≤ lines.length) :
    lineAtJs lines line ∈ getLinesJs lines s e := by
  have hlpos : 1 ≤ line := le_trans h1 hsl
  unfold getLinesJs jsSlice jsSliceIdx lineAtJs
  have hs : ¬s - 1 < 0 := by omega
  have he : ¬e < 0 := by omega
  simp only [if_neg hs, if_neg he, if_pos (And.intro hlpos hN)]
  set s' := min (s - 1).toNat lines.length with hs'
  set e' := min e.toNat lines.length with he'
  have hks : s' = (s - 1).toNat := by omega
  have hidx : (line - 1).toNat < lines.length := by omega
  have hk : (line - 1).toNat - s' < e' - s' := by omega
  have hk2 : (line - 1).toNat - s' < (lines.drop s').length := by
    simp only [List.length_drop]; omega
  have : ((lines.drop s').take (e' - s'))[(line - 1).toNat - s']? =
      some (lines.getD (line - 1).toNat "") := by
    rw [List.getElem?_take_of_lt hk, List.getElem?_drop]
    have : s' + ((line - 1).toNat - s') = (line - 1).toNat := by omega
    rw [this, List.getElem?_eq_getElem hidx, List.getD_eq_getElem]
  exact List.getElem?_mem this

/-! ### Bounds on the scopes produced by the Python parser -/

theorem findBlockEndAux_bounds (lines : List String) (ind : Nat) :
    ∀ fuel i e, e ≤ i → e ≤ lines.length →
      e ≤ findBlockEndAux lines ind fuel i e ∧
        findBlockEndAux lines ind fuel i e ≤ lines.length := by
  intro fuel
  induction fuel with
  | zero => intro i e _ h2; simp [findBlockEndAux, h2]
  | succ fuel ih =>
    intro i e h1 h2
    simp only [findBlockEndAux]
    split
    · split
      · exact ⟨le_trans (ih (i + 1) e (by omega) h2).1 (le_refl _),
          (ih (i + 1) e (by omega) h2).2⟩
      · split
        · exact ⟨le_refl _, h2⟩
        · have h3 := ih (i + 1) (i + 1) (le_refl _) (by omega)
          exact ⟨by omega, h3.2⟩
    · exact ⟨le_refl _, h2⟩

theorem findBlockEndLine_bounds (lines : List String) (s ind : Nat)
    (h : s ≤ lines.length) :
    s ≤ findBlockEndLine lines s ind ∧ findBlockEndLine lines s ind ≤ lines.length :=
  findBlockEndAux_bounds lines ind lines.length s s (le_refl _) h

/-- Every top-level function recorded by the Python parser is a well-formed
1-indexed range inside the file. -/
theorem parsePythonLines_fn_bounds (lines : List String) (f : PythonFunction)
    (hf : f ∈ (parsePythonLines lines).functions) :
    1 ≤ f.startLine ∧ f.startLine ≤ f.endLine ∧ f.endLine ≤ lines.length := by
  simp only [parsePythonLines, List.mem_filterMap, List.mem_range] at hf
  obtain ⟨i, hi, hf⟩ := hf
  split at hf
  · exact Option.noConfusion hf
  · split at hf
    · split at hf
      · injection hf with hf
        subst hf
        exact ⟨Nat.succ_le_succ (Nat.zero_le _),
          (findBlockEndLine_bounds lines (i + 1) _ (by omega)).1,
          (findBlockEndLine_bounds lines (i + 1) _ (by omega)).2⟩
      · exact Option.noConfusion hf
    · exact Option.noConfusion hf

/-- Every class (and each of its methods) recorded by the Python parser is a
well-formed 1-indexed range inside the file. -/
theorem parsePythonLines_cls_bounds (lines : List String) (c : PythonClass)
    (hc : c ∈ (parsePythonLines lines).classes) :
    (1 ≤ c.startLine ∧ c.startLine ≤ c.endLine ∧ c.endLine ≤ lines.length) ∧
      ∀ m ∈ c.methods,
        1 ≤ m.startLine ∧ m.startLine ≤ m.endLine ∧ m.endLine ≤ lines.length := by
  simp only [parsePythonLines, List.mem_filterMap, List.mem_range] at hc
  obtain ⟨i, hi, hc⟩ := hc
  split at hc
  · rename_i ind nm pr
    injection hc with hc
    subst hc
    have hbc := findBlockEndLine_bounds lines (i + 1) ind (by omega)
    constructor
    · exact ⟨Nat.succ_le_succ (Nat.zero_le _),
        (findBlockEndLine_bounds lines (i + 1) _ (by omega)).1,
        (findBlockEndLine_bounds lines (i + 1) _ (by omega)).2⟩
    · intro m hm
      simp only [extractMethods, List.mem_filterMap, List.mem_range'_1] at hm
      obtain ⟨j, hj, hjm⟩ := hm
      split at hjm
      · split at hjm
        · injection hjm with hjm
          subst hjm
          refine ⟨Nat.succ_le_succ (Nat.zero_le _),
            (findBlockEndLine_bounds lines (j + 1) _ ?hjl).1,
            (findBlockEndLine_bounds lines (j + 1) _ ?hjl).2⟩
          case hjl => omega
        · exact Option.noConfusion hjm
      · exact Option.noConfusion hjm
  · exact Option.noConfusion hc

/-- Every scope candidate inspected by the Python scope resolver is a
well-formed 1-indexed range inside the file. -/
theorem pyScopeCandidates_bounds (lines : List String) (s : ScopeInfo)
    (hs : s ∈ pyScopeCandidates (parsePythonLines lines)) :
    1 ≤ s.startLine ∧ s.startLine ≤ s.endLine ∧ s.endLine ≤ (lines.length : Int) := by
  simp only [pyScopeCandidates, List.mem_append, List.mem_map, List.mem_flatMap,
    List.mem_cons] at hs
  rcases hs with ⟨f, hf, rfl⟩ | ⟨c, hc, hcs⟩
  · obtain ⟨h1, h2, h3⟩ := parsePythonLines_fn_bounds lines f hf
    refine ⟨?_, ?_, ?_⟩ <;> simp only [pyFnScope] <;> omega
  · have hb := parsePythonLines_cls_bounds lines c hc
    rcases hcs with rfl | ⟨m, hm, rfl⟩
    · obtain ⟨⟨h1, h2, h3⟩, _⟩ := hb
      refine ⟨?_, ?_, ?_⟩ <;> simp only [pyClsScope] <;> omega
    · obtain ⟨_, hms⟩ := hb
      obtain ⟨h1, h2, h3⟩ := hms m hm
      refine ⟨?_, ?_, ?_⟩ <;> simp only [pyFnScope] <;> omega

/-! ### The best-candidate scan of the Python scope resolver -/

theorem selStep_none_case (line : Int) (c : ScopeInfo) :
    selStep line none c =
      if scopeContains line c then some (c, c.endLine - c.startLine) else none := by
  unfold selStep
  by_cases hc : scopeContains line c <;> simp [hc]

theorem selStep_some_case (line : Int) (b1 : ScopeInfo) (b2 : Int) (c : ScopeInfo) :
    selStep line (some (b1, b2)) c =
      if scopeContains line c then
        if c.endLine - c.startLine < b2 then some (c, c.endLine - c.startLine)
        else some (b1, b2)
      else some (b1, b2) := by
  unfold selStep
  by_cases hc : scopeContains line c <;> simp [hc]

theorem selStep_isSome (line : Int) (b : ScopeInfo × Int) (c : ScopeInfo) :
    (selStep line (some b) c).isSome := by
  rcases b with ⟨b1, b2⟩
  rw [selStep_some_case]
  split
  · split <;> simp
  · simp

theorem selFold_ne_none (line : Int) (L : List ScopeInfo) (b : ScopeInfo × Int) :
    L.foldl (selStep line) (some b) ≠ none := by
  induction L generalizing b with
  | nil => simp
  | cons c rest ih =>
    simp only [List.foldl_cons]
    rcases Option.isSome_iff_exists.mp (selStep_isSome line b c) with ⟨b', hb'⟩
    rw [hb']
    exact ih b'

theorem selFold_none_iff (line : Int) (L : List ScopeInfo) :
    L.foldl (selStep line) none = none ↔ L.filter (scopeContains line) = [] := by
  induction L with
  | nil => simp
  | cons c rest ih =>
    simp only [List.foldl_cons]
    by_cases hc : scopeContains line c
    · rw [selStep_none_case, if_pos hc, List.filter_cons_of_pos hc]
      constructor
      · intro h
        exact absurd h (selFold_ne_none line rest _)
      · intro h
        simp at h
    · rw [selStep_none_case, if_neg hc, List.filter_cons_of_neg hc]
      exact ih

/-- The invariant of the best-candidate scan: the final best (if any) is one
of the containing candidates (or the initial accumulator), its stored size is
its span, and it is minimal among all containing candidates scanned and at
most the initial best size. -/
theorem selFold_spec (line : Int) (L : List ScopeInfo) :
    ∀ (acc : Option (ScopeInfo × Int)),
      (∀ b, acc = some b → b.2 = b.1.endLine - b.1.startLine) →
      ∀ s sz, L.foldl (selStep line) acc = some (s, sz) →
        sz = s.endLine - s.startLine ∧
        (acc = some (s, sz) ∨ (scopeContains line s = true ∧ s ∈ L)) ∧
        (∀ t ∈ L, scopeContains line t = true → sz ≤ t.endLine - t.startLine) ∧
        (∀ b, acc = some b → sz ≤ b.2) := by
  induction L with
  | nil =>
    intro acc hinv s sz h
    simp only [List.foldl_nil] at h
    subst h
    refine ⟨hinv _ rfl, Or.inl rfl, by simp, ?_⟩
    intro b hb
    injection hb with hb
    rw [← hb]
  | cons c rest ih =>
    intro acc hinv s sz h
    simp only [List.foldl_cons] at h
    rcases hacc : acc with _ | ⟨b1, b2⟩ <;> subst hacc
    · by_cases hc : scopeContains line c
      · rw [selStep_none_case, if_pos hc] at h
        have hinv2 : ∀ b : ScopeInfo × Int,
            (some (c, c.endLine - c.startLine) : Option (ScopeInfo × Int)) = some b →
              b.2 = b.1.endLine - b.1.startLine := by
          intro b hb
          injection hb with hb
          rw [← hb]
        obtain ⟨hsz, horigin, hmin, hle⟩ := ih _ hinv2 s sz h
        have hszc : sz ≤ c.endLine - c.startLine := hle _ rfl
        refine ⟨hsz, ?_, ?_, by simp⟩
        · rcases horigin with heq | ⟨hconts, hmem⟩
          · rw [Option.some_inj, Prod.mk.injEq] at heq
            obtain ⟨rfl, rfl⟩ := heq
            exact Or.inr ⟨hc, List.mem_cons_self _ _⟩
          · exact Or.inr ⟨hconts, List.mem_cons_of_mem _ hmem⟩
        · intro t ht hcont
          rcases List.mem_cons.mp ht with rfl | ht2
          · exact hszc
          · exact hmin t ht2 hcont
      · rw [selStep_none_case, if_neg hc] at h
        obtain ⟨hsz, horigin, hmin, hle⟩ := ih _ (by simp) s sz h
        refine ⟨hsz, ?_, ?_, by simp⟩
        · rcases horigin with heq | ⟨hconts, hmem⟩
          · simp at heq
          · exact Or.inr ⟨hconts, List.mem_cons_of_mem _ hmem⟩
        · intro t ht hcont
          rcases List.mem_cons.mp ht with rfl | ht2
          · exact absurd hcont hc
          · exact hmin t ht2 hcont
    · have hb2 : b2 = b1.endLine - b1.startLine := by
        have := hinv (b1, b2) rfl
        exact this
      by_cases hc : scopeContains line c
      · by_cases hlt : c.endLine - c.startLine < b2
        · rw [selStep_some_case, if_pos hc, if_pos hlt] at h
          have hinv2 : ∀ b : ScopeInfo × Int,
              (some (c, c.endLine - c.startLine) : Option (ScopeInfo × Int)) = some b →
                b.2 = b.1.endLine - b.1.startLine := by
            intro b hb
            injection hb with hb
            rw [← hb]
          obtain ⟨hsz, horigin, hmin, hle⟩ := ih _ hinv2 s sz h
          have hszc : sz ≤ c.endLine - c.startLine := hle _ rfl
          refine ⟨hsz, ?_, ?_, ?_⟩
          · rcases horigin with heq | ⟨hconts, hmem⟩
            · rw [Option.some_inj, Prod.mk.injEq] at heq
              obtain ⟨rfl, rfl⟩ := heq
              exact Or.inr ⟨hc, List.mem_cons_self _ _⟩
            · exact Or.inr ⟨hconts, List.mem_cons_of_mem _ hmem⟩
          · intro t ht hcont
            rcases List.mem_cons.mp ht with rfl | ht2
            · exact hszc
            · exact hmin t ht2 hcont
          · intro b hb
            injection hb with hb
            rw [← hb]
            exact le_trans hszc (le_of_lt hlt)
        · rw [selStep_some_case, if_pos hc, if_neg hlt] at h
          have hinv2 : ∀ b : ScopeInfo × Int,
              (some (b1, b2) : Option (ScopeInfo × Int)) = some b →
                b.2 = b.1.endLine - b.1.startLine := by
            intro b hb
            injection hb with hb
            rw [← hb]
            exact hb2
          obtain ⟨hsz, horigin, hmin, hle⟩ := ih _ hinv2 s sz h
          have hszb : sz ≤ b2 := hle (b1, b2) rfl
          refine ⟨hsz, ?_, ?_, ?_⟩
          · rcases horigin with heq | ⟨hconts, hmem⟩
            · exact Or.inl heq
            · exact Or.inr ⟨hconts, List.mem_cons_of_mem _ hmem⟩
          · intro t ht hcont
            rcases List.mem_cons.mp ht with rfl | ht2
            · exact le_trans hszb (not_lt.mp hlt)
            · exact hmin t ht2 hcont
          · intro b hb
            injection hb with hb
            rw [← hb]
            exact hszb
      · rw [selStep_some_case, if_neg hc] at h
        have hinv2 : ∀ b : ScopeInfo × Int,
            (some (b1, b2) : Option (ScopeInfo × Int)) = some b →
              b.2 = b.1.endLine - b.1.startLine := by
          intro b hb
          injection hb with hb
          rw [← hb]
          exact hb2
        obtain ⟨hsz, horigin, hmin, hle⟩ := ih _ hinv2 s sz h
        have hszb : sz ≤ b2 := hle (b1, b2) rfl
        refine ⟨hsz, ?_, ?_, ?_⟩
        · rcases horigin with heq | ⟨hconts, hmem⟩
          · exact Or.inl heq
          · exact Or.inr ⟨hconts, List.mem_cons_of_mem _ hmem⟩
        · intro t ht hcont
          rcases List.mem_cons.mp ht with rfl | ht2
          · exact absurd hcont hc
          · exact hmin t ht2 hcont
        · intro b hb
          injection hb with hb
          rw [← hb]
          exact hszb

/-! ### Characterizing the structural walks -/

/-- Overwrite-fold: the last element of `l` if there is one, else `cur` —
exactly how the mutable `enclosing` variable accumulates. -/
def lastOr (l : List ScopeInfo) (cur : Option ScopeInfo) : Option ScopeInfo :=
  l.foldl (fun _ s => some s) cur

theorem lastOr_append (a b : List ScopeInfo) (cur : Option ScopeInfo) :
    lastOr (a ++ b) cur = lastOr b (lastOr a cur) :=
  List.foldl_append _ _ _ _

mutual

theorem scopeWalkN_eq (line : Int) (cur : Option ScopeInfo) (n : Node) :
    scopeWalkN line cur n = lastOr (containedScopesN line n) cur := by
  cases n with
  | node k l ch =>
    simp only [scopeWalkN, containedScopesN]
    by_cases h : l.startLine ≤ line ∧ l.endLine ≥ line
    · rw [if_pos h, if_pos h, scopeWalkL_eq, lastOr_append]
      by_cases hf : k.isFuncLike
      · simp [hf, lastOr]
      · simp [hf, lastOr]
    · rw [if_neg h, if_neg h]
      simp [lastOr]

theorem scopeWalkL_eq (line : Int) (cur : Option ScopeInfo) (l : List Node) :
    scopeWalkL line cur l = lastOr (containedScopesL line l) cur := by
  cases l with
  | nil => simp [scopeWalkL, containedScopesL, lastOr]
  | cons n rest =>
    simp only [scopeWalkL, containedScopesL]
    rw [scopeWalkL_eq, scopeWalkN_eq, lastOr_append]

end

mutual

theorem containedScopesN_contains (line : Int) (n : Node) (s : ScopeInfo)
    (hs : s ∈ containedScopesN line n) : s.startLine ≤ line ∧ line ≤ s.endLine := by
  cases n with
  | node k l ch =>
    simp only [containedScopesN] at hs
    by_cases h : l.startLine ≤ line ∧ l.endLine ≥ line
    · rw [if_pos h] at hs
      rcases List.mem_append.mp hs with h1 | h2
      · by_cases hf : k.isFuncLike
        · rw [if_pos hf] at h1
          rcases List.mem_singleton.mp h1 with rfl
          exact ⟨h.1, h.2⟩
        · rw [if_neg hf] at h1
          simp at h1
      · exact containedScopesL_contains line ch s h2
    · rw [if_neg h] at hs
      simp at hs

theorem containedScopesL_contains (line : Int) (l : List Node) (s : ScopeInfo)
    (hs : s ∈ containedScopesL line l) : s.startLine ≤ line ∧ line ≤ s.endLine := by
  cases l with
  | nil => simp [containedScopesL] at hs
  | cons n rest =>
    simp only [containedScopesL] at hs
    rcases List.mem_append.mp hs with h1 | h2
    · exact containedScopesN_contains line n s h1
    · exact containedScopesL_contains line rest s h2

end

mutual

theorem containedScopesN_nil_of_bounded (len : Nat) (line : Int) (n : Node)
    (hb : boundedN len n = true) (h : line < 1 ∨ line > (len : Int)) :
    containedScopesN line n = [] := by
  cases n with
  | node k l ch =>
    simp only [boundedN, Bool.and_eq_true, decide_eq_true_eq] at hb
    simp only [containedScopesN]
    rw [if_neg]
    intro hcont
    rcases h with h | h <;> omega

theorem containedScopesL_nil_of_bounded (len : Nat) (line : Int) (l : List Node)
    (hb : boundedL len l = true) (h : line < 1 ∨ line > (len : Int)) :
    containedScopesL line l = [] := by
  cases l with
  | nil => simp [containedScopesL]
  | cons n rest =>
    simp only [boundedL, Bool.and_eq_true] at hb
    simp only [containedScopesL]
    rw [containedScopesN_nil_of_bounded len line n hb.1 h,
      containedScopesL_nil_of_bounded len line rest hb.2 h]
    rfl

end

mutual

theorem containedScopesN_bounds (len : Nat) (line : Int) (n : Node) (s : ScopeInfo)
    (hb : boundedN len n = true) (hs : s ∈ containedScopesN line n) :
    1 ≤ s.startLine ∧ s.endLine ≤ (len : Int) := by
  cases n with
  | node k l ch =>
    simp only [boundedN, Bool.and_eq_true, decide_eq_true_eq] at hb
    simp only [containedScopesN] at hs
    by_cases h : l.startLine ≤ line ∧ l.endLine ≥ line
    · rw [if_pos h] at hs
      rcases List.mem_append.mp hs with h1 | h2
      · by_cases hf : k.isFuncLike
        · rw [if_pos hf] at h1
          rcases List.mem_singleton.mp h1 with rfl
          exact ⟨hb.1.1, hb.1.2⟩
        · rw [if_neg hf] at h1
          simp at h1
      · exact containedScopesL_bounds len line ch s hb.2 h2
    · rw [if_neg h] at hs
      simp at hs

theorem containedScopesL_bounds (len : Nat) (line : Int) (l : List Node)
    (s : ScopeInfo) (hb : boundedL len l = true)
    (hs : s ∈ containedScopesL line l) :
    1 ≤ s.startLine ∧ s.endLine ≤ (len : Int) := by
  cases l with
  | nil => simp [containedScopesL] at hs
  | cons n rest =>
    simp only [boundedL, Bool.and_eq_true] at hb
    simp only [containedScopesL] at hs
    rcases List.mem_append.mp hs with h1 | h2
    · exact containedScopesN_bounds len line n s hb.1 h1
    · exact containedScopesL_bounds len line rest s hb.2 h2

end

mutual

theorem refWalkN_eq (fp nm : String) (n : Node) :
    refWalkN fp nm n = (preorderN n).flatMap (callMatchLoc fp nm) := by
  cases n with
  | node k l ch =>
    simp only [refWalkN, preorderN, List.flatMap_cons]
    rw [refWalkL_eq]

theorem refWalkL_eq (fp nm : String) (l : List Node) :
    refWalkL fp nm l = (preorderL l).flatMap (callMatchLoc fp nm) := by
  cases l with
  | nil => simp [refWalkL, preorderL]
  | cons n rest =>
    simp only [refWalkL, preorderL, List.flatMap_append]
    rw [refWalkN_eq, refWalkL_eq]

end

theorem lastOr_eq_some (l : List ScopeInfo) (cur : Option ScopeInfo) (s : ScopeInfo)
    (h : lastOr l cur = some s) : s ∈ l ∨ cur = some s := by
  induction l generalizing cur with
  | nil => exact Or.inr h
  | cons x xs ih =>
    rcases ih (some x) h with hmem | heq
    · exact Or.inl (List.mem_cons_of_mem _ hmem)
    · injection heq with heq
      exact Or.inl (heq ▸ List.mem_cons_self _ _)

/-- What a successful Python scope resolution returns: a containing candidate
of minimal span. -/
theorem pyEnclosing_spec (fs : FileSys) (fp : String) (line : Int) (s : ScopeInfo)
    (h : findPythonEnclosingScopeWithLines fs fp line = some s) :
    scopeContains line s = true ∧
      s ∈ pyScopeCandidates (parsePythonFile fs fp) ∧
      ∀ t ∈ pyScopeCandidates (parsePythonFile fs fp), scopeContains line t = true →
        s.endLine - s.startLine ≤ t.endLine - t.startLine := by
  unfold findPythonEnclosingScopeWithLines at h
  rcases hm : (pyScopeCandidates (parsePythonFile fs fp)).foldl (selStep line) none with
    _ | ⟨s', sz⟩
  · rw [hm] at h
    simp at h
  · rw [hm] at h
    simp only [Option.map_some'] at h
    injection h with h
    subst h
    obtain ⟨hsz, horigin, hmin, _⟩ := selFold_spec line _ none (by simp) s' sz hm
    rcases horigin with habs | ⟨hcont, hmem⟩
    · exact absurd habs (by simp)
    · refine ⟨hcont, hmem, fun t ht hc => ?_⟩
      rw [← hsz]
      exact hmin t ht hc

/-- The Python scope resolution returns `null` exactly when no recorded scope
contains the line. -/
theorem pyEnclosing_none_iff (fs : FileSys) (fp : String) (line : Int) :
    findPythonEnclosingScopeWithLines fs fp line = none ↔
      (pyScopeCandidates (parsePythonFile fs fp)).filter (scopeContains line) = [] := by
  unfold findPythonEnclosingScopeWithLines
  simp only [Option.map_eq_none']
  exact selFold_none_iff line _

/-- A successful scope resolution (either family) returns a scope whose line
range contains the location's line. -/
theorem findEnclosingScope_contains (fs : FileSys) (fp : String)
    (loc : CodeLocation) (s : ScopeInfo) (h : findEnclosingScope fs fp loc = some s) :
    s.startLine ≤ loc.line ∧ loc.line ≤ s.endLine := by
  unfold findEnclosingScope at h
  split at h
  · have := (pyEnclosing_spec fs fp loc.line s h).1
    unfold scopeContains at this
    simp only [Bool.and_eq_true, decide_eq_true_eq, ge_iff_le] at this
    exact ⟨this.1, this.2⟩
  · split at h
    · exact Option.noConfusion h
    · rw [scopeWalkN_eq] at h
      rcases lastOr_eq_some _ _ _ h with hmem | habs
      · exact containedScopesN_contains loc.line _ s hmem
      · exact Option.noConfusion habs

/-- Any scope the resolver returns stays inside the file, in both families:
for Python files by the parser's candidate invariants, and for structural
files whenever the parse tree's ranges lie inside the file. -/
theorem findEnclosingScope_bounds (fs : FileSys) (loc : CodeLocation)
    (lines : List String) (hread : fs.read loc.filePath = some lines)
    (hbound : ∀ ast, isPythonFile loc.filePath = false →
      fs.parseTS loc.filePath = some ast → boundedN lines.length ast = true)
    (s : ScopeInfo) (h : findEnclosingScope fs loc.filePath loc = some s) :
    1 ≤ s.startLine ∧ s.endLine ≤ (lines.length : Int) := by
  unfold findEnclosingScope at h
  by_cases hpy : isPythonFile loc.filePath = true
  · rw [if_pos hpy] at h
    obtain ⟨_, hmemc, _⟩ := pyEnclosing_spec fs loc.filePath loc.line s h
    have hparse : parsePythonFile fs loc.filePath = parsePythonLines lines := by
      unfold parsePythonFile
      rw [hread]
    rw [hparse] at hmemc
    obtain ⟨hb1, _, hb3⟩ := pyScopeCandidates_bounds lines s hmemc
    exact ⟨hb1, hb3⟩
  · rw [if_neg hpy] at h
    have hpyf : isPythonFile loc.filePath = false := by simpa using hpy
    rcases hp : fs.parseTS loc.filePath with _ | ast
    · rw [hp] at h
      exact Option.noConfusion h
    · rw [hp] at h
      dsimp only at h
      rw [scopeWalkN_eq] at h
      rcases lastOr_eq_some _ _ _ h with hmem | habs
      · exact containedScopesN_bounds lines.length loc.line ast s
          (hbound ast hpyf hp) hmem
      · exact Option.noConfusion habs

/-- Every extracted reference carries the requested location and echoes the
requested depth. -/
theorem extractRef_loc_depth (fs : FileSys) (loc : CodeLocation)
    (depth : ContextDepth) (maxL : Nat) (r : FunctionReference)
    (h : extractReferenceContext fs loc depth maxL = some r) :
    r.location = loc ∧ r.depth = depth := by
  cases depth with
  | SNIPPET =>
    simp only [extractReferenceContext] at h
    rcases Option.map_eq_some'.mp h with ⟨l, _, heq⟩
    rw [← heq]
    exact ⟨rfl, rfl⟩
  | LOGIC =>
    simp only [extractReferenceContext] at h
    split at h
    · split at h
      · rcases Option.map_eq_some'.mp h with ⟨l, _, heq⟩
        rw [← heq]
        exact ⟨rfl, rfl⟩
      · rcases Option.map_eq_some'.mp h with ⟨l, _, heq⟩
        rw [← heq]
        exact ⟨rfl, rfl⟩
    · rcases Option.map_eq_some'.mp h with ⟨l, _, heq⟩
      rw [← heq]
      exact ⟨rfl, rfl⟩
  | MODULE =>
    simp only [extractReferenceContext] at h
    rcases Option.map_eq_some'.mp h with ⟨l, _, heq⟩
    rw [← heq]
    exact ⟨rfl, rfl⟩

/-! ### The multi-function analyzer's loop -/

theorem mapSet_keys (m : List (String × AnalysisResult)) (k : String)
    (v : AnalysisResult) :
    (mapSet m k v).map Prod.fst = setInsert (m.map Prod.fst) k := by
  induction m with
  | nil => simp [mapSet, setInsert]
  | cons p rest ih =>
    rcases p with ⟨k', v'⟩
    simp only [mapSet]
    by_cases hk : k' = k
    · subst hk
      rw [if_pos rfl]
      simp [setInsert]
    · rw [if_neg hk]
      simp only [List.map_cons, ih, setInsert]
      by_cases hmem : k ∈ rest.map Prod.fst
      · rw [if_pos hmem, if_pos (List.mem_cons_of_mem _ hmem)]
      · rw [if_neg hmem, if_neg ?_]
        · simp
        · intro hc
          rcases List.mem_cons.mp hc with heq | hm2
          · exact hk heq.symm
          · exact hmem hm2

theorem mapSet_mem (m : List (String × AnalysisResult)) (k : String)
    (v : AnalysisResult) (k' : String) (r : AnalysisResult)
    (h : (k', r) ∈ mapSet m k v) : (k' = k ∧ r = v) ∨ (k', r) ∈ m := by
  induction m with
  | nil =>
    simp only [mapSet, List.mem_singleton] at h
    injection h with h1 h2
    exact Or.inl ⟨h1, h2⟩
  | cons p rest ih =>
    rcases p with ⟨k2, v2⟩
    simp only [mapSet] at h
    split at h
    · rcases List.mem_cons.mp h with heq | hm2
      · injection heq with h1 h2
        exact Or.inl ⟨h1, h2⟩
      · exact Or.inr (List.mem_cons_of_mem _ hm2)
    · rcases List.mem_cons.mp h with heq | hm2
      · exact Or.inr (heq ▸ List.mem_cons_self _ _)
      · rcases ih hm2 with h1 | h2
        · exact Or.inl h1
        · exact Or.inr (List.mem_cons_of_mem _ h2)

theorem setInsert_mem (s : List String) (x y : String) :
    y ∈ setInsert s x ↔ y ∈ s ∨ y = x := by
  unfold setInsert
  by_cases hx : x ∈ s
  · rw [if_pos hx]
    constructor
    · exact Or.inl
    · intro h
      rcases h with h | rfl
      · exact h
      · exact hx
  · rw [if_neg hx]
    simp

theorem setInsert_nodup (s : List String) (x : String) (h : s.Nodup) :
    (setInsert s x).Nodup := by
  unfold setInsert
  by_cases hx : x ∈ s
  · rwa [if_pos hx]
  · rw [if_neg hx]
    simp [List.nodup_append, h, hx]

theorem foldl_setInsert_mem (l : List String) (s : List String) (y : String) :
    y ∈ l.foldl setInsert s ↔ y ∈ s ∨ y ∈ l := by
  induction l generalizing s with
  | nil => simp
  | cons x xs ih =>
    simp only [List.foldl_cons, ih, setInsert_mem, List.mem_cons]
    tauto

theorem foldl_setInsert_nodup (l : List String) (s : List String) (h : s.Nodup) :
    (l.foldl setInsert s).Nodup := by
  induction l generalizing s with
  | nil => exact h
  | cons x xs ih =>
    simp only [List.foldl_cons]
    exact ih _ (setInsert_nodup s x h)

theorem foldl_setInsert_sublist (l : List String) :
    ∀ acc, ∃ d, l.foldl setInsert acc = acc ++ d ∧ d.Sublist l := by
  induction l with
  | nil => exact fun acc => ⟨[], by simp, List.Sublist.refl _⟩
  | cons x xs ih =>
    intro acc
    simp only [List.foldl_cons]
    by_cases hx : x ∈ acc
    · rw [show setInsert acc x = acc from by unfold setInsert; rw [if_pos hx]]
      obtain ⟨d, hd, hs⟩ := ih acc
      exact ⟨d, hd, List.Sublist.cons x hs⟩
    · rw [show setInsert acc x = acc ++ [x] from by unfold setInsert; rw [if_neg hx]]
      obtain ⟨d, hd, hs⟩ := ih (acc ++ [x])
      refine ⟨x :: d, ?_, List.Sublist.cons₂ x hs⟩
      rw [hd, List.append_assoc, List.singleton_append]

theorem foldl_setInsert_of_nodup (l : List String) :
    ∀ acc, l.Nodup → (∀ x ∈ l, x ∉ acc) → l.foldl setInsert acc = acc ++ l := by
  induction l with
  | nil => intro acc _ _; simp
  | cons x xs ih =>
    intro acc hnd hdisj
    simp only [List.foldl_cons]
    rw [show setInsert acc x = acc ++ [x] from by
      unfold setInsert; rw [if_neg (hdisj x (List.mem_cons_self _ _))]]
    rw [ih (acc ++ [x]) (List.Nodup.of_cons hnd) ?_]
    · rw [List.append_assoc, List.singleton_append]
    · intro y hy
      simp only [List.mem_append, List.mem_singleton]
      rintro (hy2 | rfl)
      · exact hdisj y (List.mem_cons_of_mem _ hy) hy2
      · exact (List.nodup_cons.mp hnd).1 hy

/-- The reference count one analysis contributes to the batch totals. -/
def analyzeRefCount (fs : FileSys) (p : ContextPacker) (n : String) : Nat :=
  ((ContextPacker.analyze fs p n).map fun r => r.references.length).getD 0

/-- The file paths one analysis contributes to the matched-file set. -/
def analyzeRefPaths (fs : FileSys) (p : ContextPacker) (n : String) : List String :=
  ((ContextPacker.analyze fs p n).map fun r => r.references.map
    fun ref => ref.location.filePath).getD []

/-- The running state of `MultiFunctionAnalyzer.analyze`'s loop, related to
the whole name list: keys accumulate by first-occurrence insertion, the total
adds every analysis's reference count once per name occurrence, and the
matched-file set inserts every reference's file path. -/
theorem multiLoop_spec (fs : FileSys) (p : ContextPacker) :
    ∀ (names : List String) (m : List (String × AnalysisResult)) (tot : Nat)
      (fset : List String)
      (res : List (String × AnalysisResult) × Nat × List String),
      multiLoop fs p names m tot fset = some res →
      res.1.map Prod.fst = names.foldl setInsert (m.map Prod.fst) ∧
      res.2.1 = tot + (names.map (analyzeRefCount fs p)).sum ∧
      res.2.2 = (names.flatMap (analyzeRefPaths fs p)).foldl setInsert fset ∧
      (∀ k r, (k, r) ∈ res.1 → (k, r) ∈ m ∨ ContextPacker.analyze fs p k = some r) := by
  intro names
  induction names with
  | nil =>
    intro m tot fset res h
    simp only [multiLoop] at h
    injection h with h
    subst h
    exact ⟨rfl, by simp, rfl, fun k r h => Or.inl h⟩
  | cons nm rest ih =>
    intro m tot fset res h
    simp only [multiLoop] at h
    rcases ha : ContextPacker.analyze fs p nm with _ | r
    · rw [ha] at h
      exact Option.noConfusion h
    · rw [ha] at h
      obtain ⟨hk, ht, hf, hm⟩ := ih _ _ _ _ h
      refine ⟨?_, ?_, ?_, ?_⟩
      · rw [hk, mapSet_keys]
        simp [List.foldl_cons]
      · rw [ht]
        simp only [List.map_cons, List.sum_cons, analyzeRefCount, ha,
          Option.map_some', Option.getD_some]
        omega
      · rw [hf]
        simp only [List.flatMap_cons, analyzeRefPaths, ha, Option.map_some',
          Option.getD_some, List.foldl_append]
        rw [List.foldl_map]
      · intro k r2 hkr
        rcases hm k r2 hkr with hmem | hana
        · rcases mapSet_mem _ _ _ _ _ hmem with ⟨rfl, rfl⟩ | hmem2
          · exact Or.inr ha
          · exact Or.inl hmem2
        · exact Or.inr hana

/-- The full specification of one batch analysis run, shared by the claims
about the multi-function analyzer. -/
theorem multiAnalyze_spec (fs : FileSys) (p : ContextPacker) (names : List String)
    (res : MultiAnalysisResult)
    (h : MultiFunctionAnalyzer.analyze fs ⟨p⟩ names = some res) :
    res.functions = names ∧
    res.results.map Prod.fst = names.foldl setInsert [] ∧
    res.summary.functionCount = names.length ∧
    res.summary.filesScanned = p.files.length ∧
    res.summary.totalMatches = res.totalReferences ∧
    res.totalReferences = (names.map (analyzeRefCount fs p)).sum ∧
    (∀ k r, (k, r) ∈ res.results → ContextPacker.analyze fs p k = some r) ∧
    res.summary.filesWithMatches =
      ((names.flatMap (analyzeRefPaths fs p)).foldl setInsert []).length := by
  unfold MultiFunctionAnalyzer.analyze at h
  rcases hm : multiLoop fs p names [] 0 [] with _ | ⟨m, tot, fset⟩
  · rw [hm] at h
    exact Option.noConfusion h
  · rw [hm] at h
    simp only [Option.map_some'] at h
    injection h with h
    subst h
    obtain ⟨hk, ht, hf, hmem⟩ := multiLoop_spec fs p names [] 0 [] _ hm
    simp only [List.map_nil] at hk
    refine ⟨rfl, hk, rfl, rfl, rfl, by simpa using ht, ?_, by rw [← hf]⟩
    intro k r hkr
    rcases hmem k r hkr with habs | hana
    · simp at habs
    · exact hana

/-! ### Small helper lemmas for the claims -/

theorem containedScopesL_append (line : Int) (a b : List Node) :
    containedScopesL line (a ++ b) =
      containedScopesL line a ++ containedScopesL line b := by
  induction a with
  | nil => simp [containedScopesL]
  | cons n rest ih =>
    simp only [List.cons_append, containedScopesL, List.append_eq, ih,
      List.append_assoc]

theorem takeWhile_append_of_all {α : Type} (p : α → Bool) (l1 l2 : List α)
    (h : ∀ a ∈ l1, p a = true) :
    (l1 ++ l2).takeWhile p = l1 ++ l2.takeWhile p := by
  induction l1 with
  | nil => simp
  | cons a rest ih =>
    simp only [List.cons_append, List.takeWhile_cons,
      h a (List.mem_cons_self _ _), if_true, List.cons.injEq, true_and]
    exact ih fun a' ha' => h a' (List.mem_cons_of_mem _ ha')

theorem dropWhile_append_of_all {α : Type} (p : α → Bool) (l1 l2 : List α)
    (h : ∀ a ∈ l1, p a = true) :
    (l1 ++ l2).dropWhile p = l2.dropWhile p := by
  induction l1 with
  | nil => simp
  | cons a rest ih =>
    simp only [List.cons_append, List.dropWhile_cons,
      h a (List.mem_cons_self _ _), if_true]
    exact ih fun a' ha' => h a' (List.mem_cons_of_mem _ ha')

theorem word_not_ws (c : Char) (h : isWordChar c = true) : isWsChar c = false := by
  unfold isWsChar
  by_contra hc
  simp only [Bool.or_eq_true, decide_eq_true_eq, Bool.not_eq_false] at hc
  rcases hc with (hc | hc) | hc <;> subst hc <;> exact absurd h (by decide)

theorem listHasInfix_of_isPrefixOf (needle hay : List Char)
    (h : needle.isPrefixOf hay = true) : listHasInfix needle hay = true := by
  cases hay with
  | nil =>
    have := List.isPrefixOf_iff_prefix.mp h
    rcases List.prefix_nil.mp this with rfl
    rfl
  | cons c rest => simp [listHasInfix, h]

/-! ### Concrete fixtures used by the counterexamples and witnesses -/

/-- A file system holding the small Python files used as concrete inputs. -/
def fsPy : FileSys where
  read fp :=
    if fp = "n.py" then
      some ["def outer():", "    def inner():", "        target(1)", "    inner()"]
    else if fp = "t.py" then
      some ["def f():", "    a = 1", "    b = 2", "    c = 3"]
    else if fp = "m.py" then
      some ["def f():", "    a = 1", "    b = 2"]
    else if fp = "d.py" then
      some ["def  greet(x):", "    return x"]
    else if fp = "g.py" then some ["a()"]
    else none
  parseTS _ := none

/-- A one-file file system: `f.py` contains a single call `a(1)`. -/
def fsA : FileSys where
  read fp := if fp = "f.py" then some ["x = a(1)"] else none
  parseTS _ := none

/-- A packer over the single file `f.py`, at snippet depth. -/
def packerA : ContextPacker := ⟨["f.py"], .SNIPPET, 100⟩

/-- An empty file system and a packer with no discovered files. -/
def fsEmpty : FileSys where
  read _ := none
  parseTS _ := none

/-- A packer whose discovered file list is empty. -/
def packerEmpty : ContextPacker := ⟨[], .SNIPPET, 100⟩

/-- The single reference found for `a` in `f.py`. -/
def refA : FunctionReference := ⟨⟨"f.py", 1, 4⟩, ["x = a(1)"], .SNIPPET, none⟩

/-- The batch result for `["a", "b"]` over `packerA`. -/
def multiOutAB : MultiAnalysisResult :=
  ⟨["a", "b"], [("a", ⟨"a", [refA], 1⟩), ("b", ⟨"b", [], 0⟩)], 1, ⟨2, 1, 1, 1⟩⟩

/-- The batch result for the duplicated list `["a", "a"]` over `packerA`. -/
def multiOutAA : MultiAnalysisResult :=
  ⟨["a", "a"], [("a", ⟨"a", [refA], 1⟩)], 2, ⟨2, 1, 1, 2⟩⟩

/-- The syntax tree of `a.ts`: `function outer() { function inner() { target() } }`. -/
def astNested : Node :=
  .node .otherNode ⟨1, 0, 5, 0⟩
    [.node (.funcDecl (some "outer")) ⟨1, 0, 5, 1⟩
      [.node (.funcDecl (some "inner")) ⟨2, 2, 4, 3⟩
        [.node .callExpr ⟨3, 4, 3, 12⟩ [.node (.identE "target") ⟨3, 4, 3, 10⟩ []]]]]

/-- The syntax tree of `b.ts`: `obj.process()` then `obj["process"]()`. -/
def astMember : Node :=
  .node .otherNode ⟨1, 0, 2, 0⟩
    [.node .callExpr ⟨1, 0, 1, 13⟩
      [.node (.memberE false) ⟨1, 0, 1, 11⟩
        [.node (.identE "obj") ⟨1, 0, 1, 3⟩ [],
         .node (.identE "process") ⟨1, 4, 1, 11⟩ []]],
     .node .callExpr ⟨2, 0, 2, 16⟩
      [.node (.memberE true) ⟨2, 0, 2, 14⟩
        [.node (.identE "obj") ⟨2, 0, 2, 3⟩ [],
         .node (.identE "process") ⟨2, 4, 2, 13⟩ []]]]

/-- A file system holding the two TypeScript trees above, plus a readable
`good.py` and an unparseable, non-Python `bad.ts`. -/
def fsTS : FileSys where
  read fp :=
    if fp = "a.ts" then
      some ["function outer() \x7b", "  function inner() \x7b", "    target()", "  \x7d", "\x7d"]
    else if fp = "good.py" then some ["a()"]
    else none
  parseTS fp :=
    if fp = "a.ts" then some astNested
    else if fp = "b.ts" then some astMember
    else none

/-! ### The claims -/

/-- Claim C5: in the structural family, `findReferencesInFile` records a
location exactly at the call expressions (in pre-order) whose callee is a
plain identifier equal to the target name, or a non-computed member access
whose property identifier equals the target name; a computed member call is
never matched, for any target name. -/
theorem C5_structural_callee_matching :
    (∀ (fs : FileSys) (fp nm : String) (ast : Node),
      isPythonFile fp = false → fs.parseTS fp = some ast →
      findReferencesInFile fs fp nm = (preorderN ast).flatMap (callMatchLoc fp nm)) ∧
    (∀ (fp nm : String) (l lm : Loc) (obj prop : Node) (args : List Node),
      callMatchLoc fp nm
        (.node .callExpr l (.node (.memberE true) lm [obj, prop] :: args)) = []) ∧
    (∀ (fp nm target : String) (l lm pl : Loc) (obj : Node) (args : List Node),
      callMatchLoc fp target
        (.node .callExpr l
          (.node (.memberE false) lm [obj, .node (.identE nm) pl []] :: args)) =
        if nm = target then [⟨fp, l.startLine, l.startColumn⟩] else []) ∧
    (∀ (fp nm target : String) (l il : Loc) (args : List Node),
      callMatchLoc fp target (.node .callExpr l (.node (.identE nm) il [] :: args)) =
        if nm = target then [⟨fp, l.startLine, l.startColumn⟩] else []) := by
  refine ⟨?_, ?_, ?_, ?_⟩
  · intro fs fp nm ast hfp hparse
    unfold findReferencesInFile
    rw [if_neg (by rw [hfp]; exact Bool.false_ne_true), hparse]
    exact refWalkN_eq fp nm ast
  · intro fp nm l lm obj prop args
    simp [callMatchLoc, calleeNameOf]
  · intro fp nm target l lm pl obj args
    by_cases h : nm = target
    · subst h
      simp [callMatchLoc, calleeNameOf]
    · simp [callMatchLoc, calleeNameOf, h]
  · intro fp nm target l il args
    by_cases h : nm = target
    · subst h
      simp [callMatchLoc, calleeNameOf]
    · simp [callMatchLoc, calleeNameOf, h]

/-- Claim C5 witness: the member-call file `b.ts` — `obj.process()` is
matched, `obj["process"]()` is not. -/
theorem C5_witness :
    isPythonFile "b.ts" = false ∧
    findReferencesInFile fsTS "b.ts" "process" =
      (preorderN astMember).flatMap (callMatchLoc "b.ts" "process") ∧
    findReferencesInFile fsTS "b.ts" "process" = [⟨"b.ts", 1, 0⟩] :=
  ⟨by decide, C5_structural_callee_matching.1 fsTS "b.ts" "process" astMember
    (by decide) rfl, by decide⟩

/-- Claim C6: a file that fails to parse (in the structural family)
contributes nothing to `ContextPacker.analyze` — the result over a file set
containing it equals the result over the same file set without it, so all
other files' references survive and nothing is thrown. -/
theorem C6_parse_failure_skipped (fs : FileSys) (pre post : List String)
    (bad : String) (depth : ContextDepth) (maxL : Nat) (nm : String)
    (h1 : isPythonFile bad = false) (h2 : fs.parseTS bad = none) :
    ContextPacker.analyze fs ⟨pre ++ bad :: post, depth, maxL⟩ nm =
      ContextPacker.analyze fs ⟨pre ++ post, depth, maxL⟩ nm := by
  have hbad : findReferencesInFile fs bad nm = [] := by
    unfold findReferencesInFile
    rw [if_neg (by rw [h1]; exact Bool.false_ne_true), h2]
  unfold ContextPacker.analyze
  dsimp only
  rw [List.flatMap_append, List.flatMap_cons, hbad, List.flatMap_append]
  simp

/-- Claim C6 witness: with `bad.ts` unparseable, analyzing `a` over
`[good.py, bad.ts]` equals analyzing over `[good.py]` alone. -/
theorem C6_witness :
    isPythonFile "bad.ts" = false ∧ fsTS.parseTS "bad.ts" = none ∧
    ContextPacker.analyze fsTS ⟨["good.py"] ++ "bad.ts" :: [], .SNIPPET, 100⟩ "a" =
      ContextPacker.analyze fsTS ⟨["good.py"] ++ [], .SNIPPET, 100⟩ "a" :=
  ⟨by decide, rfl,
    C6_parse_failure_skipped fsTS ["good.py"] [] "bad.ts" .SNIPPET 100 "a"
      (by decide) rfl⟩

/-- Claim C7: whenever `extractMultipleContexts` returns a list, it has
exactly one entry per input location, the i-th entry carries the i-th input
location, and every entry echoes the requested depth. -/
theorem C7_extract_multiple_order (fs : FileSys) (locs : List CodeLocation)
    (depth : ContextDepth) (maxL : Nat) (out : List FunctionReference)
    (h : extractMultipleContexts fs locs depth maxL = some out) :
    out.length = locs.length ∧
    out.map (fun r => r.location) = locs ∧
    ∀ r ∈ out, r.depth = depth := by
  induction locs generalizing out with
  | nil =>
    simp only [extractMultipleContexts] at h
    injection h with h
    subst h
    simp
  | cons loc rest ih =>
    simp only [extractMultipleContexts] at h
    rcases he : extractReferenceContext fs loc depth maxL with _ | r
    · rw [he] at h
      exact Option.noConfusion h
    · rw [he] at h
      rcases hrest : extractMultipleContexts fs rest depth maxL with _ | out'
      · rw [hrest] at h
        exact Option.noConfusion h
      · rw [hrest] at h
        simp only [Option.map_some'] at h
        injection h with h
        subst h
        obtain ⟨h1, h2, h3⟩ := ih out' hrest
        obtain ⟨hl, hd⟩ := extractRef_loc_depth fs loc depth maxL r he
        refine ⟨by simp [h1], by simp [h2, hl], ?_⟩
        intro r2 hr2
        rcases List.mem_cons.mp hr2 with rfl | hr3
        · exact hd
        · exact h3 r2 hr3

/-- Claim C7 witness: one snippet extraction over `t.py`. -/
theorem C7_witness :
    extractMultipleContexts fsPy [⟨"t.py", 3, 4⟩] .SNIPPET 100 =
      some [⟨⟨"t.py", 3, 4⟩, ["    b = 2"], .SNIPPET, none⟩] ∧
    ([⟨⟨"t.py", 3, 4⟩, ["    b = 2"], .SNIPPET, none⟩] : List FunctionReference).length =
      ([⟨"t.py", 3, 4⟩] : List CodeLocation).length ∧
    ([⟨⟨"t.py", 3, 4⟩, ["    b = 2"], .SNIPPET, none⟩] : List FunctionReference).map
      (fun r => r.location) = [⟨"t.py", 3, 4⟩] ∧
    ∀ r ∈ ([⟨⟨"t.py", 3, 4⟩, ["    b = 2"], .SNIPPET, none⟩] : List FunctionReference),
      r.depth = .SNIPPET := by
  refine ⟨by decide, ?_⟩
  exact C7_extract_multiple_order fsPy [⟨"t.py", 3, 4⟩] .SNIPPET 100 _ (by decide)

/-- Claim C9: for a readable file and a location whose line number is outside
the file (zero, negative, or beyond the last line), snippet extraction
returns the empty string as context without throwing, and the scope resolver
returns no scope — for Python files unconditionally, and for structural files
whenever the parse tree's ranges lie inside the file (as every real parse
does). -/
theorem C9_out_of_range (fs : FileSys) (loc : CodeLocation) (lines : List String)
    (maxL : Nat) (hread : fs.read loc.filePath = some lines)
    (hout : loc.line < 1 ∨ loc.line > (lines.length : Int)) :
    extractReferenceContext fs loc .SNIPPET maxL =
      some ⟨loc, [""], .SNIPPET, none⟩ ∧
    (isPythonFile loc.filePath = true →
      findEnclosingScope fs loc.filePath loc = none) ∧
    (∀ ast, isPythonFile loc.filePath = false → fs.parseTS loc.filePath = some ast →
      boundedN lines.length ast = true →
      findEnclosingScope fs loc.filePath loc = none) := by
  refine ⟨?_, ?_, ?_⟩
  · simp only [extractReferenceContext, getLine, getFileContent, hread,
      Option.map_some']
    have hl : lineAtJs lines loc.line = "" := by
      unfold lineAtJs
      rw [if_neg]
      intro hc
      rcases hout with h | h <;> omega
    rw [hl]
  · intro hpy
    unfold findEnclosingScope
    rw [if_pos hpy, pyEnclosing_none_iff]
    rw [List.filter_eq_nil_iff]
    intro s hs
    have hb : parsePythonFile fs loc.filePath = parsePythonLines lines := by
      unfold parsePythonFile
      rw [hread]
    rw [hb] at hs
    obtain ⟨h1, _, h3⟩ := pyScopeCandidates_bounds lines s hs
    unfold scopeContains
    simp only [Bool.and_eq_true, decide_eq_true_eq, ge_iff_le, not_and]
    intro hs1 hs2
    rcases hout with h | h <;> omega
  · intro ast hnpy hparse hbdd
    unfold findEnclosingScope
    rw [if_neg (by rw [hnpy]; exact Bool.false_ne_true), hparse]
    dsimp only
    rw [scopeWalkN_eq,
      containedScopesN_nil_of_bounded lines.length loc.line ast hbdd hout]
    rfl

/-- Claim C9 witness: line 7 of the three-line file `m.py`. -/
theorem C9_witness :
    fsPy.read "m.py" = some ["def f():", "    a = 1", "    b = 2"] ∧
    extractReferenceContext fsPy ⟨"m.py", 7, 0⟩ .SNIPPET 100 =
      some ⟨⟨"m.py", 7, 0⟩, [""], .SNIPPET, none⟩ ∧
    findEnclosingScope fsPy "m.py" ⟨"m.py", 7, 0⟩ = none := by
  have h := C9_out_of_range fsPy ⟨"m.py", 7, 0⟩
    ["def f():", "    a = 1", "    b = 2"] 100 rfl (by decide)
  exact ⟨rfl, h.1, h.2.1 (by decide)⟩

/-- Claim C8 counterexample: with the duplicated name list `["a", "a"]` the
results map iterates over the single key `["a"]`, which is not the
caller-supplied input order `["a", "a"]`. -/
theorem C8_counterexample :
    (MultiFunctionAnalyzer.analyze fsEmpty ⟨packerEmpty⟩ ["a", "a"]).map
      (fun res => res.results.map Prod.fst) = some ["a"] ∧
    (["a"] : List String) ≠ ["a", "a"] :=
  ⟨by decide, by decide⟩

/-- Claim C8 (amended): the batch analyzer's `totalMatches` (and
`totalReferences`) is the sum of the per-name reference counts over the input
list, `filesWithMatches` counts the distinct file paths among all those
references, every map entry holds its name's analysis result, and the map
iterates in first-occurrence order of the names — equal to the caller's input
order when the names are distinct. -/
theorem C8_batch_summary (fs : FileSys) (p : ContextPacker) (names : List String)
    (res : MultiAnalysisResult)
    (h : MultiFunctionAnalyzer.analyze fs ⟨p⟩ names = some res) :
    res.results.map Prod.fst = names.foldl setInsert [] ∧
    (names.Nodup → res.results.map Prod.fst = names) ∧
    res.summary.functionCount = names.length ∧
    res.summary.totalMatches = res.totalReferences ∧
    res.totalReferences = (names.map (analyzeRefCount fs p)).sum ∧
    (∀ k r, (k, r) ∈ res.results → ContextPacker.analyze fs p k = some r) ∧
    res.summary.filesWithMatches =
      ((names.flatMap (analyzeRefPaths fs p)).foldl setInsert []).length ∧
    ((names.flatMap (analyzeRefPaths fs p)).foldl setInsert []).Nodup ∧
    (∀ x, x ∈ (names.flatMap (analyzeRefPaths fs p)).foldl setInsert [] ↔
      x ∈ names.flatMap (analyzeRefPaths fs p)) := by
  obtain ⟨_, hk, hfc, _, htm, htr, hmem, hfw⟩ := multiAnalyze_spec fs p names res h
  refine ⟨hk, ?_, hfc, htm, htr, hmem, hfw, foldl_setInsert_nodup _ _ List.nodup_nil,
    ?_⟩
  · intro hnd
    rw [hk, foldl_setInsert_of_nodup names [] hnd (by simp)]
    simp
  · intro x
    rw [foldl_setInsert_mem]
    simp

/-- Claim C8 witness: the two-name batch `["a", "b"]` over the one-file
packer — `functionCount` is 2 and the keys iterate in input order. -/
theorem C8_witness :
    multiOutAB.summary.functionCount = (["a", "b"] : List String).length ∧
    ((["a", "b"] : List String).Nodup → multiOutAB.results.map Prod.fst = ["a", "b"]) :=
  ⟨(C8_batch_summary fsA packerA ["a", "b"] multiOutAB (by decide)).2.2.1,
    (C8_batch_summary fsA packerA ["a", "b"] multiOutAB (by decide)).2.1⟩

/-- Claim C10: with a duplicated input name, the results map keeps one entry
per distinct name (in first-occurrence order), `functionCount` still counts
the full input list and so exceeds the map size, and the totals add the
duplicated name's reference count once per occurrence — concretely, for
`["a", "a"]` over the one-call packer, `functionCount = 2 > 1 = results.size`
and `totalMatches = 2 > 1`, the sum of the map entries' counts. -/
theorem C10_duplicate_names :
    (∀ (fs : FileSys) (p : ContextPacker) (names : List String)
      (res : MultiAnalysisResult), ¬names.Nodup →
      MultiFunctionAnalyzer.analyze fs ⟨p⟩ names = some res →
      res.results.map Prod.fst = names.foldl setInsert [] ∧
      (res.results.map Prod.fst).Nodup ∧
      res.results.length < names.length ∧
      res.summary.functionCount = names.length ∧
      res.totalReferences = (names.map (analyzeRefCount fs p)).sum ∧
      res.summary.totalMatches = res.totalReferences) ∧
    ((MultiFunctionAnalyzer.analyze fsA ⟨packerA⟩ ["a", "a"]).map fun res =>
      (res.summary.functionCount, res.results.length, res.summary.totalMatches,
        (res.results.map fun kr => kr.2.references.length).sum)) =
      some (2, 1, 2, 1) := by
  constructor
  · intro fs p names res hnd h
    obtain ⟨_, hk, hfc, _, htm, htr, _, _⟩ := multiAnalyze_spec fs p names res h
    obtain ⟨d, hd, hsub⟩ := foldl_setInsert_sublist names []
    rw [List.nil_append] at hd
    have hdnod : d.Nodup := by
      have := foldl_setInsert_nodup names [] List.nodup_nil
      rwa [hd] at this
    have hlt : d.length < names.length := by
      rcases Nat.lt_or_ge d.length names.length with hlt | hge
      · exact hlt
      · exfalso
        have hlen : d.length = names.length :=
          Nat.le_antisymm (List.Sublist.length_le hsub) hge
        have : d = names := (List.Sublist.length_eq hsub).mp hlen
        rw [this] at hdnod
        exact hnd hdnod
    refine ⟨hk, ?_, ?_, hfc, htr, htm⟩
    · rw [hk, hd]
      exact hdnod
    · have : (res.results.map Prod.fst).length = d.length := by rw [hk, hd]
      rw [List.length_map] at this
      omega
  · decide

/-- Claim C10 witness: the duplicated batch `["a", "a"]` itself. -/
theorem C10_witness :
    ¬(["a", "a"] : List String).Nodup ∧
    multiOutAA.results.length < (["a", "a"] : List String).length :=
  ⟨by decide,
    (C10_duplicate_names.1 fsA packerA ["a", "a"] multiOutAA (by decide)
      (by decide)).2.2.1⟩

/-- Claim C2 counterexample: in `t.py` the scope `f` spans 4 lines; with
`maxLines = 2` the truncated `LOGIC` context at line 3 has 5 lines, which
exceeds the claimed bound `maxLines + 2 = 4` (the centered window is
`2·⌊maxLines/2⌋ + 1 = maxLines + 1` lines wide for even `maxLines`). -/
theorem C2_counterexample :
    (extractReferenceContext fsPy ⟨"t.py", 3, 4⟩ .LOGIC 2).map
      (fun r => r.context.length) = some 5 ∧ ¬(5 ≤ 2 + 2) :=
  ⟨by decide, by decide⟩

/-- Claim C2 (amended): when the resolved scope spans more than
`maxContextLines` lines, the truncated `LOGIC` context has at most
`2·⌊maxContextLines/2⌋ + 3` lines — that is `maxContextLines + 2` for odd and
`maxContextLines + 3` for even `maxContextLines` — and it still contains the
source line at the requested location verbatim, with the scope's name
reported. -/
theorem C2_truncation_bounds (fs : FileSys) (loc : CodeLocation) (maxL : Nat)
    (lines : List String) (scope : ScopeInfo)
    (hread : fs.read loc.filePath = some lines)
    (hscope : findEnclosingScope fs loc.filePath loc = some scope)
    (hstart : 1 ≤ scope.startLine)
    (hbig : scope.endLine - scope.startLine + 1 > (maxL : Int))
    (_hl1 : 1 ≤ loc.line) (hlN : loc.line ≤ (lines.length : Int)) :
    ∃ r, extractReferenceContext fs loc .LOGIC maxL = some r ∧
      r.context.length ≤ 2 * (maxL / 2) + 3 ∧
      lineAtJs lines loc.line ∈ r.context ∧
      r.enclosingScope = some scope.name := by
  obtain ⟨hcl, hcr⟩ := findEnclosingScope_contains fs loc.filePath loc scope hscope
  set rad : Int := ((maxL / 2 : Nat) : Int) with hrad
  have hrad0 : 0 ≤ rad := by omega
  set sL := max scope.startLine (loc.line - rad) with hsL
  set eL := min scope.endLine (loc.line + rad) with heL
  have hs1 : 1 ≤ sL := le_trans hstart (le_max_left _ _)
  have hsl : sL ≤ loc.line := max_le hcl (by omega)
  have hle : loc.line ≤ eL := le_min hcr (by omega)
  have hbody_mem : lineAtJs lines loc.line ∈ getLinesJs lines sL eL :=
    lineAtJs_mem_getLinesJs lines sL eL loc.line hs1 hsl hle hlN
  have hbody_ne : getLinesJs lines sL eL ≠ [] := List.ne_nil_of_mem hbody_mem
  have hext : extractReferenceContext fs loc .LOGIC maxL =
      some ⟨loc, truncHeader sL eL :: getLinesJs lines sL eL ++ ["// ..."], .LOGIC,
        some scope.name⟩ := by
    simp only [extractReferenceContext, hscope]
    rw [if_pos hbig]
    simp only [getLines, getFileContent, hread, Option.map_some']
    rw [show asTextLines (getLinesJs lines sL eL) = getLinesJs lines sL eL from by
      unfold asTextLines
      rw [if_neg (by simpa using hbody_ne)]]
  refine ⟨_, hext, ?_, ?_, rfl⟩
  · have h1 : ((getLinesJs lines sL eL).length : Int) ≤ eL - sL + 1 :=
      getLinesJs_length_le lines sL eL hs1 (le_trans hsl hle)
    have hsge : loc.line - rad ≤ sL := le_max_right _ _
    have hele : eL ≤ loc.line + rad := min_le_right _ _
    simp only [List.length_cons, List.length_append, List.length_singleton,
      List.length_nil]
    omega
  · exact List.mem_cons_of_mem _ (List.mem_append_left _ hbody_mem)

/-- Claim C2 witness: the counterexample file itself satisfies the amended
bound (5 ≤ 2·1 + 3). -/
theorem C2_witness :
    fsPy.read "t.py" = some ["def f():", "    a = 1", "    b = 2", "    c = 3"] ∧
    findEnclosingScope fsPy "t.py" ⟨"t.py", 3, 4⟩ = some ⟨"f", 1, 4⟩ ∧
    ∃ r, extractReferenceContext fsPy ⟨"t.py", 3, 4⟩ .LOGIC 2 = some r ∧
      r.context.length ≤ 2 * (2 / 2) + 3 ∧
      lineAtJs ["def f():", "    a = 1", "    b = 2", "    c = 3"] 3 ∈ r.context ∧
      r.enclosingScope = some (⟨"f", 1, 4⟩ : ScopeInfo).name :=
  ⟨rfl, by decide,
    C2_truncation_bounds fsPy ⟨"t.py", 3, 4⟩ 2
      ["def f():", "    a = 1", "    b = 2", "    c = 3"] ⟨"f", 1, 4⟩
      rfl (by decide) (by decide) (by decide) (by decide) (by decide)⟩

/-- Claim C3 counterexample: in the three-line file `m.py`, whose single
scope spans the whole file, the truncated `LOGIC` context at line 2 with
`maxLines = 2` has 5 lines while the `MODULE` context has only 3 — the two
truncation-marker lines push `LOGIC` above `MODULE`, so depth monotonicity
fails. -/
theorem C3_counterexample :
    (extractReferenceContext fsPy ⟨"m.py", 2, 4⟩ .LOGIC 2).map
      (fun r => r.context.length) = some 5 ∧
    (extractReferenceContext fsPy ⟨"m.py", 2, 4⟩ .MODULE 2).map
      (fun r => r.context.length) = some 3 ∧
    ¬(5 ≤ 3) :=
  ⟨by decide, by decide, by decide⟩

/-- Claim C3 (amended): for a readable file of either family and a location
inside it — for structural files under the side condition that the parse
tree's ranges lie inside the file, as every real parse produces — `SNIPPET`
has exactly 1 context line, `MODULE` has the whole file, and `LOGIC` has at
least as many lines as `SNIPPET` and at most two more than `MODULE` (the two
truncation markers); when no scope is found `LOGIC` equals `SNIPPET`, and
when the found scope fits within `maxContextLines` the original monotonicity
`LOGIC ≤ MODULE` does hold. -/
theorem C3_depth_monotonicity (fs : FileSys) (loc : CodeLocation) (maxL : Nat)
    (lines : List String)
    (hread : fs.read loc.filePath = some lines)
    (hbound : ∀ ast, isPythonFile loc.filePath = false →
      fs.parseTS loc.filePath = some ast → boundedN lines.length ast = true)
    (hne : lines ≠ [])
    (_hl1 : 1 ≤ loc.line) (hlN : loc.line ≤ (lines.length : Int)) :
    ∃ rS rL rM,
      extractReferenceContext fs loc .SNIPPET maxL = some rS ∧
      extractReferenceContext fs loc .LOGIC maxL = some rL ∧
      extractReferenceContext fs loc .MODULE maxL = some rM ∧
      rS.context.length = 1 ∧
      rM.context.length = lines.length ∧
      rS.context.length ≤ rL.context.length ∧
      rL.context.length ≤ rM.context.length + 2 ∧
      (findEnclosingScope fs loc.filePath loc = none → rL.context = rS.context) ∧
      (∀ scope, findEnclosingScope fs loc.filePath loc = some scope →
        scope.endLine - scope.startLine + 1 ≤ (maxL : Int) →
        rL.context.length ≤ rM.context.length) := by
  have hNpos : lines.length ≠ 0 := fun hc => hne (List.eq_nil_of_length_eq_zero hc)
  have hM : extractReferenceContext fs loc .MODULE maxL =
      some ⟨loc, lines, .MODULE, none⟩ := by
    simp only [extractReferenceContext, getFileContent, hread, Option.map_some']
    rw [show asTextLines lines = lines from by
      unfold asTextLines
      rw [if_neg (by simpa using hne)]]
  have hS : extractReferenceContext fs loc .SNIPPET maxL =
      some ⟨loc, [lineAtJs lines loc.line], .SNIPPET, none⟩ := by
    simp only [extractReferenceContext, getLine, getFileContent, hread,
      Option.map_some']
  rcases hsc : findEnclosingScope fs loc.filePath loc with _ | scope
  · -- fallback: LOGIC is the snippet
    have hL : extractReferenceContext fs loc .LOGIC maxL =
        some ⟨loc, [lineAtJs lines loc.line], .LOGIC, none⟩ := by
      simp only [extractReferenceContext, hsc, getLine, getFileContent, hread,
        Option.map_some']
    refine ⟨_, _, _, hS, hL, hM, rfl, rfl, ?_, ?_, ?_, ?_⟩
    · dsimp only
      omega
    · dsimp only
      simp only [List.length_cons, List.length_nil]
      omega
    · intro _
      rfl
    · intro scope hscope _
      exact Option.noConfusion hscope
  · -- a scope was found: its bounds stay inside the file in either family
    obtain ⟨hcl, hcr⟩ := findEnclosingScope_contains fs loc.filePath loc scope hsc
    obtain ⟨hb1, hb3⟩ := findEnclosingScope_bounds fs loc lines hread hbound scope hsc
    have hb2 : scope.startLine ≤ scope.endLine := le_trans hcl hcr
    by_cases hbig : scope.endLine - scope.startLine + 1 > (maxL : Int)
    · -- truncated window
      obtain ⟨sL, hsL⟩ :
          ∃ s : Int, s = max scope.startLine (loc.line - ((maxL / 2 : Nat) : Int)) :=
        ⟨_, rfl⟩
      obtain ⟨eL, heL⟩ :
          ∃ e : Int, e = min scope.endLine (loc.line + ((maxL / 2 : Nat) : Int)) :=
        ⟨_, rfl⟩
      have hs1 : 1 ≤ sL := by
        rw [hsL]
        exact le_trans hb1 (le_max_left _ _)
      have hsl : sL ≤ loc.line := by
        rw [hsL]
        exact max_le hcl (by omega)
      have hle : loc.line ≤ eL := by
        rw [heL]
        exact le_min hcr (by omega)
      have hbody_mem : lineAtJs lines loc.line ∈ getLinesJs lines sL eL :=
        lineAtJs_mem_getLinesJs lines sL eL loc.line hs1 hsl hle hlN
      have hbody_ne : getLinesJs lines sL eL ≠ [] := List.ne_nil_of_mem hbody_mem
      have hL : extractReferenceContext fs loc .LOGIC maxL =
          some ⟨loc, truncHeader sL eL :: getLinesJs lines sL eL ++ ["// ..."],
            .LOGIC, some scope.name⟩ := by
        simp only [extractReferenceContext, hsc]
        rw [if_pos hbig]
        simp only [getLines, getFileContent, hread, Option.map_some']
        rw [← hsL, ← heL]
        rw [show asTextLines (getLinesJs lines sL eL) = getLinesJs lines sL eL from by
          unfold asTextLines
          rw [if_neg (by simpa using hbody_ne)]]
      have hblen : (getLinesJs lines sL eL).length ≤ lines.length :=
        getLinesJs_length_le_len lines sL eL
      refine ⟨_, _, _, hS, hL, hM, rfl, rfl, ?_, ?_, ?_, ?_⟩
      · dsimp only
        simp only [List.length_append, List.length_cons, List.length_nil]
        omega
      · dsimp only
        simp only [List.length_append, List.length_cons, List.length_singleton,
          List.length_nil]
        clear hbody_mem hbody_ne hL hs1 hsl hle hsL heL hbig
        omega
      · intro habs
        exact Option.noConfusion habs
      · intro scope2 hscope2 hsmall
        injection hscope2 with hscope2
        subst hscope2
        omega
    · -- the whole scope fits
      have hfull : ((getLinesJs lines scope.startLine scope.endLine).length : Int) =
          scope.endLine - scope.startLine + 1 :=
        getLinesJs_length_full lines scope.startLine scope.endLine hb1 hb2 hb3
      have hbody_ne : getLinesJs lines scope.startLine scope.endLine ≠ [] := by
        intro hc
        rw [hc] at hfull
        simp only [List.length_nil, Nat.cast_zero] at hfull
        omega
      have hL : extractReferenceContext fs loc .LOGIC maxL =
          some ⟨loc, getLinesJs lines scope.startLine scope.endLine, .LOGIC,
            some scope.name⟩ := by
        simp only [extractReferenceContext, hsc]
        rw [if_neg hbig]
        simp only [getLines, getFileContent, hread, Option.map_some']
        rw [show asTextLines (getLinesJs lines scope.startLine scope.endLine) =
            getLinesJs lines scope.startLine scope.endLine from by
          unfold asTextLines
          rw [if_neg (by simpa using hbody_ne)]]
      have hblen : (getLinesJs lines scope.startLine scope.endLine).length ≤
          lines.length :=
        getLinesJs_length_le_len lines scope.startLine scope.endLine
      refine ⟨_, _, _, hS, hL, hM, rfl, rfl, ?_, ?_, ?_, ?_⟩
      · dsimp only
        simp only [List.length_cons, List.length_nil]
        omega
      · dsimp only
        omega
      · intro habs
        exact Option.noConfusion habs
      · intro scope2 hscope2 _
        dsimp only
        omega

/-- Claim C3 witness: the structural file `a.ts` at line 3 with the default
100-line ceiling (the enclosing `inner` scope fits, so full monotonicity
holds there). -/
theorem C3_witness :
    fsTS.read (⟨"a.ts", 3, 4⟩ : CodeLocation).filePath =
      some ["function outer() \x7b", "  function inner() \x7b", "    target()",
        "  \x7d", "\x7d"] ∧
    ∃ rS rL rM,
      extractReferenceContext fsTS ⟨"a.ts", 3, 4⟩ .SNIPPET 100 = some rS ∧
      extractReferenceContext fsTS ⟨"a.ts", 3, 4⟩ .LOGIC 100 = some rL ∧
      extractReferenceContext fsTS ⟨"a.ts", 3, 4⟩ .MODULE 100 = some rM ∧
      rS.context.length = 1 ∧
      rM.context.length =
        (["function outer() \x7b", "  function inner() \x7b", "    target()",
          "  \x7d", "\x7d"] : List String).length ∧
      rS.context.length ≤ rL.context.length ∧
      rL.context.length ≤ rM.context.length + 2 ∧
      (findEnclosingScope fsTS (⟨"a.ts", 3, 4⟩ : CodeLocation).filePath ⟨"a.ts", 3, 4⟩ =
          none → rL.context = rS.context) ∧
      (∀ scope,
        findEnclosingScope fsTS (⟨"a.ts", 3, 4⟩ : CodeLocation).filePath ⟨"a.ts", 3, 4⟩ =
          some scope →
        scope.endLine - scope.startLine + 1 ≤ ((100 : Nat) : Int) →
        rL.context.length ≤ rM.context.length) :=
  ⟨rfl,
    C3_depth_monotonicity fsTS ⟨"a.ts", 3, 4⟩ 100
      ["function outer() \x7b", "  function inner() \x7b", "    target()",
        "  \x7d", "\x7d"]
      rfl
      (fun ast _ hp => by
        have h2 : some astNested = some ast := hp
        injection h2 with h2
        subst h2
        decide)
      (by decide) (by decide) (by decide)⟩

/-- Claim C1 counterexample: in `n.py` the nested function `inner` (a `def`
indented inside the top-level `def outer`) contains the call site at line 3,
but the Python parser records only top-level functions and class members, so
`findEnclosingScope` returns `outer`, not `inner`. -/
theorem C1_counterexample :
    (findEnclosingScope fsPy "n.py" ⟨"n.py", 3, 8⟩).map (fun s => s.name) =
      some "outer" ∧ "outer" ≠ "inner" :=
  ⟨by decide, by decide⟩

/-- Claim C1 (amended): in the structural family the resolver returns the
last containing function-like scope in (containment-gated) traversal order —
every reported scope contains the line, and for properly nested functions
`outer` around `inner` around the call site the result is `inner`, not
`outer`.  In the Python family the resolver returns a containing scope of
minimal line span among the candidates the Python parser records (top-level
functions, classes and class-body defs; nested defs inside top-level
functions are not candidates), and returns null when no candidate contains
the line. -/
theorem C1_innermost_scope :
    (∀ (line : Int) (cur : Option ScopeInfo) (n : Node),
      scopeWalkN line cur n = lastOr (containedScopesN line n) cur) ∧
    (∀ (line : Int) (n : Node) (s : ScopeInfo), s ∈ containedScopesN line n →
      s.startLine ≤ line ∧ line ≤ s.endLine) ∧
    (∀ (line : Int) (oLoc iLoc : Loc) (oid iid : String)
      (pre post innerCh : List Node),
      oLoc.startLine ≤ line → line ≤ oLoc.endLine →
      iLoc.startLine ≤ line → line ≤ iLoc.endLine →
      containedScopesL line innerCh = [] →
      containedScopesL line post = [] →
      scopeWalkN line none
        (.node (.funcDecl (some oid)) oLoc
          (pre ++ .node (.funcDecl (some iid)) iLoc innerCh :: post)) =
        some ⟨iid, iLoc.startLine, iLoc.endLine⟩) ∧
    (∀ (fs : FileSys) (fp : String) (line : Int) (s : ScopeInfo),
      findPythonEnclosingScopeWithLines fs fp line = some s →
      s ∈ pyScopeCandidates (parsePythonFile fs fp) ∧
      scopeContains line s = true ∧
      ∀ t ∈ pyScopeCandidates (parsePythonFile fs fp),
        scopeContains line t = true →
        s.endLine - s.startLine ≤ t.endLine - t.startLine) ∧
    (∀ (fs : FileSys) (fp : String) (line : Int),
      (pyScopeCandidates (parsePythonFile fs fp)).filter (scopeContains line) = [] →
      findPythonEnclosingScopeWithLines fs fp line = none) := by
  refine ⟨scopeWalkN_eq, containedScopesN_contains, ?_, ?_, ?_⟩
  · intro line oLoc iLoc oid iid pre post innerCh ho1 ho2 hi1 hi2 hinner hpost
    rw [scopeWalkN_eq]
    simp only [containedScopesN, containedScopesL, containedScopesL_append]
    rw [if_pos (show oLoc.startLine ≤ line ∧ oLoc.endLine ≥ line from ⟨ho1, ho2⟩),
      if_pos (show iLoc.startLine ≤ line ∧ iLoc.endLine ≥ line from ⟨hi1, hi2⟩),
      hinner, hpost]
    simp only [NKind.isFuncLike, NKind.scopeName, if_true, List.append_nil]
    unfold lastOr
    rw [List.foldl_append, List.foldl_append]
    rfl
  · intro fs fp line s h
    obtain ⟨hcont, hmem, hmin⟩ := pyEnclosing_spec fs fp line s h
    exact ⟨hmem, hcont, hmin⟩
  · intro fs fp line h
    rw [pyEnclosing_none_iff]
    exact h

/-- Claim C1 witness: the nested TypeScript tree — the walk at line 3
returns `inner` (lines 2–4), not `outer`. -/
theorem C1_witness :
    containedScopesL 3 ([] : List Node) = [] ∧
    scopeWalkN 3 none
      (.node (.funcDecl (some "outer")) ⟨1, 0, 5, 1⟩
        ([] ++ .node (.funcDecl (some "inner")) ⟨2, 2, 4, 3⟩
          [.node .callExpr ⟨3, 4, 3, 12⟩
            [.node (.identE "target") ⟨3, 4, 3, 10⟩ []]] :: [])) =
      some ⟨"inner", 2, 4⟩ :=
  ⟨by decide,
    C1_innermost_scope.2.2.1 3 ⟨1, 0, 5, 1⟩ ⟨2, 2, 4, 3⟩ "outer" "inner" []
      [] [.node .callExpr ⟨3, 4, 3, 12⟩ [.node (.identE "target") ⟨3, 4, 3, 10⟩ []]]
      (by decide) (by decide) (by decide) (by decide) (by decide) (by decide)⟩

/-- Claim C4 counterexample: `d.py` defines `greet` with two spaces after
`def`; the line passes `FUNCTION_DEF_RE` but does not contain the substring
`"def greet"`, so it is not skipped and the declaration itself is reported as
a call at column 5 — the result is not empty although the file contains a
definition of the target and no call. -/
theorem C4_counterexample :
    findReferencesInFile fsPy "d.py" "greet" = [⟨"d.py", 1, 5⟩] ∧
    ([⟨"d.py", 1, 5⟩] : List CodeLocation) ≠ [] :=
  ⟨by decide, by decide⟩

/-- A canonical definition line `def <name>(...` — written with exactly one
space — is skipped by the Python reference scan: it matches
`FUNCTION_DEF_RE` and contains the substring `"def " + name`. -/
theorem pySkip_canonical_def (nm rest : List Char) (hne : nm ≠ [])
    (hw : ∀ c ∈ nm, isWordChar c = true) :
    pySkipLine (String.mk ('d' :: 'e' :: 'f' :: ' ' :: (nm ++ '(' :: rest)))
      (String.mk nm) = true := by
  obtain ⟨c0, nm', rfl⟩ : ∃ c0 nm', nm = c0 :: nm' := by
    cases nm with
    | nil => exact absurd rfl hne
    | cons c0 nm' => exact ⟨c0, nm', rfl⟩
  have hc0w : isWordChar c0 = true := hw c0 (List.mem_cons_self _ _)
  have hc0ne : ¬(isWsChar c0 = true) := by simp [word_not_ws c0 hc0w]
  have hparenW : ¬(isWordChar '(' = true) := by decide
  have hparenWs : ¬(isWsChar '(' = true) := by decide
  have hd : ¬(isWsChar 'd' = true) := by decide
  have hspT : isWsChar ' ' = true := by decide
  have htw : ((c0 :: nm') ++ '(' :: rest).takeWhile isWordChar = c0 :: nm' := by
    rw [takeWhile_append_of_all isWordChar (c0 :: nm') ('(' :: rest) hw]
    rw [List.takeWhile_cons, if_neg hparenW, List.append_nil]
  have hdw : ((c0 :: nm') ++ '(' :: rest).dropWhile isWordChar = '(' :: rest := by
    rw [dropWhile_append_of_all isWordChar (c0 :: nm') ('(' :: rest) hw]
    rw [List.dropWhile_cons, if_neg hparenW]
  simp only [List.cons_append] at htw hdw
  unfold pySkipLine
  rw [Bool.and_eq_true]
  constructor
  · -- FUNCTION_DEF_RE.test succeeds
    unfold testFunctionDef matchFunctionDef
    simp only [String.toList]
    simp only [List.cons_append, List.dropWhile_cons, List.takeWhile_cons, hd, hspT,
      hc0ne, htw, hdw, hparenWs, if_true, if_false, List.isEmpty_cons,
      Bool.false_eq_true, Option.isSome_some]
  · -- the line contains "def " + name
    have hneedle : ("def " ++ String.mk (c0 :: nm')).toList =
        'd' :: 'e' :: 'f' :: ' ' :: (c0 :: nm') := rfl
    rw [hneedle]
    apply listHasInfix_of_isPrefixOf
    apply List.isPrefixOf_iff_prefix.mpr
    show ('d' :: 'e' :: 'f' :: ' ' :: (c0 :: nm')) <+:
      ('d' :: 'e' :: 'f' :: ' ' :: ((c0 :: nm') ++ '(' :: rest))
    have hshape : ('d' :: 'e' :: 'f' :: ' ' :: ((c0 :: nm') ++ '(' :: rest)) =
        ('d' :: 'e' :: 'f' :: ' ' :: (c0 :: nm')) ++ '(' :: rest := by
      simp
    rw [hshape]
    exact List.prefix_append _ _

/-- Claim C4 (amended): the structural family never reports a declaration
(a file with no matching call expression yields no references); in the
Python family the scan skips exactly the lines that pass `FUNCTION_DEF_RE`
and contain the substring `"def " + targetName` — so canonical single-space
definitions of the target are skipped and a file of such lines (plus lines
with no call-pattern match) yields `[]`, while every call-pattern match on a
non-skipped line is recorded. -/
theorem C4_no_self_match :
    (∀ (fs : FileSys) (fp nm : String) (ast : Node),
      isPythonFile fp = false → fs.parseTS fp = some ast →
      (∀ n ∈ preorderN ast, callMatchLoc fp nm n = []) →
      findReferencesInFile fs fp nm = []) ∧
    (∀ (nm rest : List Char), nm ≠ [] → (∀ c ∈ nm, isWordChar c = true) →
      pySkipLine (String.mk ('d' :: 'e' :: 'f' :: ' ' :: (nm ++ '(' :: rest)))
        (String.mk nm) = true) ∧
    (∀ (fp nm : String) (lines : List String),
      (∀ line ∈ lines, pySkipLine line nm = true ∨ scanCalls line nm = []) →
      findPythonReferencesLines fp lines nm = []) ∧
    (∀ (fp nm : String) (lines : List String) (i c : Nat), i < lines.length →
      pySkipLine (lines.getD i "") nm = false →
      c ∈ scanCalls (lines.getD i "") nm →
      (⟨fp, (i : Int) + 1, (c : Int)⟩ : CodeLocation) ∈
        findPythonReferencesLines fp lines nm) := by
  refine ⟨?_, pySkip_canonical_def, ?_, ?_⟩
  · intro fs fp nm ast hfp hparse hnone
    unfold findReferencesInFile
    rw [if_neg (by rw [hfp]; exact Bool.false_ne_true), hparse]
    dsimp only
    rw [refWalkN_eq]
    exact List.flatMap_eq_nil_iff.mpr hnone
  · intro fp nm lines hall
    unfold findPythonReferencesLines
    apply List.flatMap_eq_nil_iff.mpr
    intro i hi
    rw [List.mem_range] at hi
    have hmem : lines.getD i "" ∈ lines := by
      rw [List.getD_eq_getElem lines "" hi]
      exact List.getElem_mem hi
    dsimp only
    rcases hall _ hmem with hskip | hnomatch
    · simp only [List.getD_eq_getElem?_getD] at hskip
      simp [hskip]
    · simp only [List.getD_eq_getElem?_getD] at hnomatch
      simp [hnomatch]
  · intro fp nm lines i c hi hskip hc
    unfold findPythonReferencesLines
    rw [List.mem_flatMap]
    refine ⟨i, List.mem_range.mpr hi, ?_⟩
    dsimp only
    simp only [hskip, Bool.false_eq_true, if_false, List.mem_map]
    exact ⟨c, hc, rfl⟩

/-- Claim C4 witness: a file with one canonical definition of `greet` and a
body line with no call yields no references. -/
theorem C4_witness :
    (∀ line ∈ (["def greet(x):", "    return x"] : List String),
      pySkipLine line "greet" = true ∨ scanCalls line "greet" = []) ∧
    findPythonReferencesLines "s.py" ["def greet(x):", "    return x"] "greet" = [] :=
  ⟨by decide,
    C4_no_self_match.2.2.1 "s.py" "greet" ["def greet(x):", "    return x"]
      (by decide)⟩

end CPack
